import Mathlib

/-! KubePodsBalancer: the rebalancing pass of `main.go`.

A shallow embedding of the one pass performed by `main.go`:

* `isPodPartOfDeployment` (lines 105-112) and `selectPods` (lines 89-103);
* the aggregation loop of `main` (lines 44-50) over the two Go maps
  `podsPerNode` and `podsOnNode`;
* the computation of `idealPodsPerNode` (lines 52-57), where the integer
  division panics on a zero divisor;
* the loop filling `adjustmentsPerNode` (lines 61-64);
* the deletion loop (lines 71-86), which calls `Delete` once per selected pod.

Go's `int` is modelled by `Int`: every integer handled by the pass is a slice
or map length, or a difference of two such lengths, so no operation can leave
the 64-bit range.  A Go `map[string]T` is an association list whose keys are
pairwise distinct; reading an absent key gives the zero value of `T`.  The
order in which `range` visits a map is not fixed by the language, so each
`range` loop takes the enumeration of the entries as a parameter.  The calls
to `fmt.Printf` and `time.Sleep` have no effect on the values computed and
are left out, except for the line reporting a failed deletion.  The source
ignores the error returned by the listing of line 41, so the pass is a
function of the items the listing returned.
-/

namespace KubePodsBalancer

/-! ## Data model -/

/-- The fields of `metav1.OwnerReference` read by the program. -/
structure OwnerReference where
  Kind : String
  Name : String
deriving DecidableEq, Repr

/-- The fields of `v1.Pod` read by the program: `GetName()`, `GetNamespace()`,
`Spec.NodeName` and `OwnerReferences`. -/
structure Pod where
  Name : String
  Namespace : String
  NodeName : String
  OwnerReferences : List OwnerReference
deriving DecidableEq, Repr

/-! ## Go maps with string keys -/

/-- A Go `map[string]α`: the entries, with pairwise distinct keys. -/
abbrev GoMap (α : Type) := List (String × α)

namespace GoMap

/-- The expression `m[k]`: the value stored under `k`, or the zero value. -/
def get {α : Type} (zero : α) : GoMap α → String → α
  | [], _ => zero
  | (k', v) :: rest, k => if k' = k then v else get zero rest k

/-- The statement `m[k] = v`: overwrite the entry of `k`, or add one. -/
def set {α : Type} : GoMap α → String → α → GoMap α
  | [], k, v => [(k, v)]
  | (k', v') :: rest, k, v => if k' = k then (k', v) :: rest else (k', v') :: set rest k v

/-- The keys of the map. -/
def keys {α : Type} (m : GoMap α) : List String := m.map Prod.fst

/-- The expression `len(m)`. -/
def len {α : Type} (m : GoMap α) : Int := (m.length : Int)

end GoMap

/-! ## Eligibility and selection (lines 89-112) -/

/-- The loop of `isPodPartOfDeployment` over the owner references. -/
def isPodPartOfDeploymentLoop : List OwnerReference → Bool
  | [] => false
  | ownerRef :: rest =>
    if ownerRef.Kind = "ReplicaSet" then true else isPodPartOfDeploymentLoop rest

/-- Lines 105-112. -/
def isPodPartOfDeployment (pod : Pod) : Bool :=
  isPodPartOfDeploymentLoop pod.OwnerReferences

/-- The loop of `selectPods`: the pods still to scan and `selectedPods` so far. -/
def selectPodsLoop (numberOfPodsToSelect : Int) : List Pod → List Pod → List Pod
  | [], selectedPods => selectedPods
  | pod :: rest, selectedPods =>
    if (selectedPods.length : Int) ≥ numberOfPodsToSelect then selectedPods
    else if isPodPartOfDeployment pod then
      selectPodsLoop numberOfPodsToSelect rest (selectedPods ++ [pod])
    else selectPodsLoop numberOfPodsToSelect rest selectedPods

/-- Lines 89-103. -/
def selectPods (pods : List Pod) (numberOfPodsToSelect : Int) : List Pod :=
  selectPodsLoop numberOfPodsToSelect pods []

/-! ## Aggregation (lines 44-50) -/

/-- One iteration of the aggregation loop, on the pair
`(podsPerNode, podsOnNode)`. -/
def aggregateStep (maps : GoMap Int × GoMap (List Pod)) (pod : Pod) :
    GoMap Int × GoMap (List Pod) :=
  (maps.1.set pod.NodeName (maps.1.get 0 pod.NodeName + 1),
   maps.2.set pod.NodeName (maps.2.get [] pod.NodeName ++ [pod]))

/-- Lines 44-50: both maps start empty and every pod is visited in order. -/
def aggregate (podItems : List Pod) : GoMap Int × GoMap (List Pod) :=
  podItems.foldl aggregateStep ([], [])

/-- The map `podsPerNode` after the aggregation loop. -/
def podsPerNode (podItems : List Pod) : GoMap Int := (aggregate podItems).1

/-- The map `podsOnNode` after the aggregation loop. -/
def podsOnNode (podItems : List Pod) : GoMap (List Pod) := (aggregate podItems).2

/-! ## Target (lines 52-57) -/

/-- Go's `/` on `int`: truncated division, a run-time panic on a zero divisor. -/
def goDiv (a b : Int) : Except String Int :=
  if b = 0 then .error "runtime error: integer divide by zero" else .ok (Int.tdiv a b)

/-- Lines 55-57. -/
def adjustIdeal (idealPodsPerNode : Int) : Int :=
  if idealPodsPerNode > 5 then idealPodsPerNode - 5 else idealPodsPerNode

/-- Lines 52-57, from `len(pods.Items)` and `len(podsPerNode)`. -/
def idealPodsPerNode (total hosts : Int) : Except String Int :=
  match goDiv total hosts with
  | .error e => .error e
  | .ok ideal => .ok (adjustIdeal ideal)

/-! ## Adjustments (lines 61-64) -/

/-- Lines 61-64, over the entries of `podsPerNode` in the order visited. -/
def computeAdjustments (ideal : Int) (visited : List (String × Int)) : GoMap Int :=
  visited.foldl (fun adjustmentsPerNode entry =>
    adjustmentsPerNode.set entry.1 (entry.2 - ideal)) []

/-! ## Deletion (lines 71-86) -/

/-- The arguments of one call `Pods(namespace).Delete(ctx, name, ...)`. -/
structure DeleteCall where
  Namespace : String
  Name : String
deriving DecidableEq, Repr

/-- What the deletion loop has done so far: the `Delete` calls issued, oldest
first, and the failures reported (pod name and error text). -/
structure Effects where
  calls : List DeleteCall
  failures : List (String × String)
deriving DecidableEq, Repr

/-- Lines 77-84 for one pod.  The outcome of the call is read from `outcome`
at the number of calls issued before it; `none` stands for a `nil` error. -/
def deletePod (outcome : Nat → Option String) (eff : Effects) (pod : Pod) : Effects :=
  match outcome eff.calls.length with
  | none => { eff with calls := eff.calls ++ [⟨pod.Namespace, pod.Name⟩] }
  | some err =>
    { calls := eff.calls ++ [⟨pod.Namespace, pod.Name⟩],
      failures := eff.failures ++ [(pod.Name, err)] }

/-- Lines 72-85: the body of the deletion loop for one entry of `podsPerNode`. -/
def processNode (outcome : Nat → Option String) (podsOnNode : GoMap (List Pod))
    (adjustmentsPerNode : GoMap Int) (eff : Effects) (entry : String × Int) : Effects :=
  let adjustment := adjustmentsPerNode.get 0 entry.1
  if adjustment > 0 then
    (selectPods (podsOnNode.get [] entry.1) (adjustmentsPerNode.get 0 entry.1)).foldl
      (deletePod outcome) eff
  else eff

/-- Lines 71-86, over the entries of `podsPerNode` in the order visited. -/
def deleteLoop (outcome : Nat → Option String) (podsOnNode : GoMap (List Pod))
    (adjustmentsPerNode : GoMap Int) (visited : List (String × Int)) : Effects :=
  visited.foldl (processNode outcome podsOnNode adjustmentsPerNode) ⟨[], []⟩

/-! ## The pass (lines 41-87) -/

/-- The values held by `main` when it returns. -/
structure PassState where
  podsPerNode : GoMap Int
  podsOnNode : GoMap (List Pod)
  idealPodsPerNode : Int
  adjustmentsPerNode : GoMap Int
  effects : Effects
deriving DecidableEq, Repr

/-- Lines 41-87 on the pods returned by the listing.  `range1` and `range2`
give the order in which the loops of lines 62 and 71 visit `podsPerNode`;
`outcome` gives the result of each `Delete` call.  An `error` is a panic. -/
def main (range1 range2 : GoMap Int → List (String × Int))
    (outcome : Nat → Option String) (podItems : List Pod) : Except String PassState :=
  let maps := aggregate podItems
  match idealPodsPerNode (podItems.length : Int) (GoMap.len maps.1) with
  | .error e => .error e
  | .ok ideal =>
    let adjustmentsPerNode := computeAdjustments ideal (range1 maps.1)
    .ok { podsPerNode := maps.1,
          podsOnNode := maps.2,
          idealPodsPerNode := ideal,
          adjustmentsPerNode := adjustmentsPerNode,
          effects := deleteLoop outcome maps.2 adjustmentsPerNode (range2 maps.1) }

/-- The `Delete` calls issued by a run, oldest first; a run that panics at the
division of line 52 has not issued any. -/
def deleteCalls : Except String PassState → List DeleteCall
  | .error _ => []
  | .ok st => st.effects.calls

/-- The arguments with which line 79 calls `Delete` for a pod. -/
def deleteCallOf (pod : Pod) : DeleteCall := ⟨pod.Namespace, pod.Name⟩

/-! ## Sample data -/

/-- A pod owned by a ReplicaSet. -/
def rsPod (name node : String) : Pod :=
  ⟨name, "default", node, [⟨"ReplicaSet", "rs"⟩]⟩

/-- A pod without owner. -/
def barePod (name node : String) : Pod :=
  ⟨name, "default", node, []⟩

/-- A pod owned by a DaemonSet. -/
def dsPod (name node : String) : Pod :=
  ⟨name, "kube-system", node, [⟨"DaemonSet", "ds"⟩]⟩

/-- Five pods of one host, two of them owned by a ReplicaSet. -/
def fivePods : List Pod :=
  [barePod "p0" "A", rsPod "p1" "A", dsPod "p2" "A", rsPod "p3" "A", barePod "p4" "A"]

/-- Six pods over three hosts, one of them unscheduled. -/
def samplePods : List Pod :=
  [rsPod "a1" "A", barePod "b1" "B", rsPod "a2" "A", rsPod "u1" "", rsPod "a3" "A",
   rsPod "a4" "A"]

/-- The pods handed to `Delete` by the deletion loop, in call order: for each
entry visited whose adjustment is positive, the pods returned by `selectPods`. -/
def selectedPods (podsOnNode : GoMap (List Pod)) (adjustmentsPerNode : GoMap Int)
    (visited : List (String × Int)) : List Pod :=
  visited.flatMap (fun entry =>
    if adjustmentsPerNode.get 0 entry.1 > 0 then
      selectPods (podsOnNode.get [] entry.1) (adjustmentsPerNode.get 0 entry.1)
    else [])

/-- Twelve pods over three hosts: seven on "A" (five owned by a ReplicaSet, two
without owner), three on "B" and two on "C". -/
def scenarioPods : List Pod :=
  [barePod "a0" "A", rsPod "b1" "B", rsPod "a1" "A", rsPod "a2" "A", rsPod "c1" "C",
   barePod "a3" "A", rsPod "a4" "A", rsPod "b2" "B", rsPod "a5" "A", rsPod "a6" "A",
   rsPod "c2" "C", rsPod "b3" "B"]

/-- Seven pods, none of them scheduled: six owned by a ReplicaSet, one without
owner. -/
def unscheduledPods : List Pod :=
  [rsPod "u1" "", barePod "u2" "", rsPod "u3" "", rsPod "u4" "", rsPod "u5" "",
   rsPod "u6" "", rsPod "u7" ""]

/-- Four hosts with the same number of pods each, all owned by a ReplicaSet. -/
def evenPods (perHost : Nat) : List Pod :=
  ["A", "B", "C", "D"].flatMap (fun host => List.replicate perHost (rsPod "x" host))

/-- Seven pods over three hosts, two of which are above the target 2. -/
def twoBusyHosts : List Pod :=
  [rsPod "a1" "A", rsPod "b1" "B", rsPod "a2" "A", rsPod "c1" "C", rsPod "b2" "B",
   rsPod "a3" "A", rsPod "b3" "B"]

/-! ## Go maps: reading, writing, keys -/

theorem GoMap.get_set {α : Type} (zero : α) (m : GoMap α) (k : String) (v : α) (h : String) :
    GoMap.get zero (GoMap.set m k v) h = if k = h then v else GoMap.get zero m h := by
  induction m with
  | nil => simp [GoMap.set, GoMap.get]
  | cons e rest ih =>
    obtain ⟨k', v'⟩ := e
    by_cases hk : k' = k
    · subst hk
      by_cases hh : k' = h <;> simp [GoMap.set, GoMap.get, hh]
    · by_cases hh : k' = h
      · subst hh
        have hk2 : ¬ k = k' := fun e => hk e.symm
        simp [GoMap.set, GoMap.get, hk, hk2]
      · simp [GoMap.set, GoMap.get, hk, hh, ih]

theorem GoMap.mem_keys_set {α : Type} (m : GoMap α) (k : String) (v : α) (h : String) :
    h ∈ GoMap.keys (GoMap.set m k v) ↔ h = k ∨ h ∈ GoMap.keys m := by
  induction m with
  | nil => simp [GoMap.set, GoMap.keys]
  | cons e rest ih =>
    obtain ⟨k', v'⟩ := e
    have ih2 : h ∈ List.map Prod.fst (GoMap.set rest k v) ↔ h = k ∨ h ∈ List.map Prod.fst rest := ih
    by_cases hk : k' = k
    · subst hk
      simp [GoMap.set, GoMap.keys]
    · simp only [GoMap.set, GoMap.keys, hk, if_false, List.map_cons, List.mem_cons, ih2]
      tauto

theorem GoMap.nodup_keys_set {α : Type} (m : GoMap α) (k : String) (v : α)
    (hm : (GoMap.keys m).Nodup) : (GoMap.keys (GoMap.set m k v)).Nodup := by
  induction m with
  | nil => simp [GoMap.set, GoMap.keys]
  | cons e rest ih =>
    obtain ⟨k', v'⟩ := e
    have hm2 : k' ∉ GoMap.keys rest ∧ (GoMap.keys rest).Nodup := by
      simpa [GoMap.keys] using hm
    by_cases hk : k' = k
    · subst hk
      simpa [GoMap.set, GoMap.keys] using hm
    · have h1 : k' ∉ GoMap.keys (GoMap.set rest k v) := by
        rw [GoMap.mem_keys_set]
        rintro (h | h)
        · exact hk h
        · exact hm2.1 h
      have h2 := ih hm2.2
      simp only [GoMap.set, hk, if_false]
      exact List.nodup_cons.mpr ⟨h1, h2⟩

theorem GoMap.get_of_not_mem_keys {α : Type} (zero : α) (m : GoMap α) (h : String)
    (hh : h ∉ GoMap.keys m) : GoMap.get zero m h = zero := by
  induction m with
  | nil => rfl
  | cons e rest ih =>
    obtain ⟨k', v'⟩ := e
    have h1 : ¬ k' = h ∧ h ∉ GoMap.keys rest := by
      constructor
      · intro e
        exact hh (by simp [GoMap.keys, e])
      · intro e
        exact hh (by simp only [GoMap.keys, List.map_cons, List.mem_cons]; exact Or.inr e)
    simp [GoMap.get, h1.1, ih h1.2]

theorem GoMap.get_of_mem {α : Type} (zero : α) (m : GoMap α) (h : String) (v : α)
    (hm : (GoMap.keys m).Nodup) (hv : (h, v) ∈ m) : GoMap.get zero m h = v := by
  induction m with
  | nil => simp at hv
  | cons e rest ih =>
    obtain ⟨k', v'⟩ := e
    have hm2 : k' ∉ GoMap.keys rest ∧ (GoMap.keys rest).Nodup := by
      simpa [GoMap.keys] using hm
    rcases List.mem_cons.mp hv with h1 | h1
    · cases h1
      simp [GoMap.get]
    · have hne : ¬ k' = h := by
        intro e
        subst e
        exact hm2.1 (List.mem_map.mpr ⟨(k', v), h1, rfl⟩)
      simp [GoMap.get, hne, ih hm2.2 h1]

theorem GoMap.mem_of_mem_keys {α : Type} (zero : α) (m : GoMap α) (h : String)
    (hh : h ∈ GoMap.keys m) : (h, GoMap.get zero m h) ∈ m := by
  induction m with
  | nil => simp [GoMap.keys] at hh
  | cons e rest ih =>
    obtain ⟨k', v'⟩ := e
    by_cases hk : k' = h
    · subst hk
      simp [GoMap.get]
    · have h2 : h ∈ GoMap.keys rest := by
        have h3 : h = k' ∨ h ∈ GoMap.keys rest := by simpa [GoMap.keys] using hh
        rcases h3 with h3 | h3
        · exact absurd h3.symm hk
        · exact h3
      simp only [GoMap.get, hk, if_false]
      exact List.mem_cons_of_mem _ (ih h2)

/-! ## Eligibility and selection -/

theorem isPodPartOfDeploymentLoop_iff (refs : List OwnerReference) :
    isPodPartOfDeploymentLoop refs = true ↔ ∃ o ∈ refs, o.Kind = "ReplicaSet" := by
  induction refs with
  | nil => simp [isPodPartOfDeploymentLoop]
  | cons o rest ih =>
    by_cases ho : o.Kind = "ReplicaSet"
    · simp [isPodPartOfDeploymentLoop, ho]
    · simp [isPodPartOfDeploymentLoop, ho, ih]

theorem selectPodsLoop_eq (n : Int) (pods selected : List Pod) :
    selectPodsLoop n pods selected =
      selected ++ (pods.filter isPodPartOfDeployment).take (n.toNat - selected.length) := by
  induction pods generalizing selected with
  | nil => simp [selectPodsLoop]
  | cons pod rest ih =>
    by_cases hfull : (selected.length : Int) ≥ n
    · have h0 : n.toNat - selected.length = 0 := by omega
      simp [selectPodsLoop, hfull, h0]
    · have hpos : n.toNat - selected.length = (n.toNat - (selected.length + 1)) + 1 := by omega
      by_cases he : isPodPartOfDeployment pod = true
      · simp only [selectPodsLoop, hfull, if_false, he, if_true, ih, List.length_append,
          List.length_singleton, List.filter_cons_of_pos he]
        rw [hpos, List.take_succ_cons]
        simp
      · simp only [selectPodsLoop, hfull, if_false, he, ih]
        simp [List.filter_cons, he]

theorem selectPods_eq (pods : List Pod) (s : Int) :
    selectPods pods s = (pods.filter isPodPartOfDeployment).take (max s 0).toNat := by
  have h : (max s 0).toNat = s.toNat := by omega
  simp [selectPods, selectPodsLoop_eq, h]

/-! ## Aggregation -/

theorem foldl_aggregateStep_get_count (pods : List Pod) (acc : GoMap Int × GoMap (List Pod))
    (h : String) :
    GoMap.get 0 (pods.foldl aggregateStep acc).1 h =
      GoMap.get 0 acc.1 h + ((pods.filter (fun p => p.NodeName = h)).length : Int) := by
  induction pods generalizing acc with
  | nil => simp
  | cons pod rest ih =>
    rw [List.foldl_cons, ih]
    by_cases hp : pod.NodeName = h
    · simp [aggregateStep, GoMap.get_set, hp, List.filter_cons]
      omega
    · simp [aggregateStep, GoMap.get_set, hp, List.filter_cons]

theorem foldl_aggregateStep_get_pods (pods : List Pod) (acc : GoMap Int × GoMap (List Pod))
    (h : String) :
    GoMap.get [] (pods.foldl aggregateStep acc).2 h =
      GoMap.get [] acc.2 h ++ pods.filter (fun p => p.NodeName = h) := by
  induction pods generalizing acc with
  | nil => simp
  | cons pod rest ih =>
    rw [List.foldl_cons, ih]
    by_cases hp : pod.NodeName = h
    · simp [aggregateStep, GoMap.get_set, hp, List.filter_cons]
    · simp [aggregateStep, GoMap.get_set, hp, List.filter_cons]

theorem foldl_aggregateStep_mem_keys (pods : List Pod) (acc : GoMap Int × GoMap (List Pod))
    (h : String) :
    (h ∈ GoMap.keys (pods.foldl aggregateStep acc).1 ↔
        h ∈ GoMap.keys acc.1 ∨ ∃ p ∈ pods, p.NodeName = h) ∧
      (h ∈ GoMap.keys (pods.foldl aggregateStep acc).2 ↔
        h ∈ GoMap.keys acc.2 ∨ ∃ p ∈ pods, p.NodeName = h) := by
  induction pods generalizing acc with
  | nil => simp
  | cons pod rest ih =>
    rw [List.foldl_cons]
    refine ⟨?_, ?_⟩
    · rw [(ih _).1]
      simp only [aggregateStep, GoMap.mem_keys_set, List.mem_cons, exists_eq_or_imp]
      constructor
      · rintro ((h1 | h1) | h1)
        · exact Or.inr (Or.inl h1.symm)
        · exact Or.inl h1
        · exact Or.inr (Or.inr h1)
      · rintro (h1 | h1 | h1)
        · exact Or.inl (Or.inr h1)
        · exact Or.inl (Or.inl h1.symm)
        · exact Or.inr h1
    · rw [(ih _).2]
      simp only [aggregateStep, GoMap.mem_keys_set, List.mem_cons, exists_eq_or_imp]
      constructor
      · rintro ((h1 | h1) | h1)
        · exact Or.inr (Or.inl h1.symm)
        · exact Or.inl h1
        · exact Or.inr (Or.inr h1)
      · rintro (h1 | h1 | h1)
        · exact Or.inl (Or.inr h1)
        · exact Or.inl (Or.inl h1.symm)
        · exact Or.inr h1

theorem foldl_aggregateStep_nodup (pods : List Pod) (acc : GoMap Int × GoMap (List Pod))
    (h1 : (GoMap.keys acc.1).Nodup) (h2 : (GoMap.keys acc.2).Nodup) :
    (GoMap.keys (pods.foldl aggregateStep acc).1).Nodup ∧
      (GoMap.keys (pods.foldl aggregateStep acc).2).Nodup := by
  induction pods generalizing acc with
  | nil => exact ⟨h1, h2⟩
  | cons pod rest ih =>
    rw [List.foldl_cons]
    exact ih _ (GoMap.nodup_keys_set _ _ _ h1) (GoMap.nodup_keys_set _ _ _ h2)

theorem podsPerNode_get (pods : List Pod) (h : String) :
    GoMap.get 0 (podsPerNode pods) h = ((pods.filter (fun p => p.NodeName = h)).length : Int) := by
  simp [podsPerNode, aggregate, foldl_aggregateStep_get_count, GoMap.get]

theorem podsOnNode_get (pods : List Pod) (h : String) :
    GoMap.get [] (podsOnNode pods) h = pods.filter (fun p => p.NodeName = h) := by
  simp [podsOnNode, aggregate, foldl_aggregateStep_get_pods, GoMap.get]

theorem mem_keys_podsPerNode (pods : List Pod) (h : String) :
    h ∈ GoMap.keys (podsPerNode pods) ↔ ∃ p ∈ pods, p.NodeName = h := by
  have h1 := (foldl_aggregateStep_mem_keys pods ([], []) h).1
  have h2 : h ∉ GoMap.keys ([] : GoMap Int) := by simp [GoMap.keys]
  simpa [h2] using h1

theorem mem_keys_podsOnNode (pods : List Pod) (h : String) :
    h ∈ GoMap.keys (podsOnNode pods) ↔ ∃ p ∈ pods, p.NodeName = h := by
  have h1 := (foldl_aggregateStep_mem_keys pods ([], []) h).2
  have h2 : h ∉ GoMap.keys ([] : GoMap (List Pod)) := by simp [GoMap.keys]
  simpa [h2] using h1

theorem nodup_keys_podsPerNode (pods : List Pod) : (GoMap.keys (podsPerNode pods)).Nodup :=
  (foldl_aggregateStep_nodup pods ([], []) (by simp [GoMap.keys]) (by simp [GoMap.keys])).1

theorem nodup_keys_podsOnNode (pods : List Pod) : (GoMap.keys (podsOnNode pods)).Nodup :=
  (foldl_aggregateStep_nodup pods ([], []) (by simp [GoMap.keys]) (by simp [GoMap.keys])).2

/-- Filtering by membership of the host in a duplicate-free list of hosts
splits into the per-host filters. -/
theorem flatMap_filter_perm (pods : List Pod) (hosts : List String) (hn : hosts.Nodup) :
    (hosts.flatMap (fun h => pods.filter (fun p => p.NodeName = h))).Perm
      (pods.filter (fun p => p.NodeName ∈ hosts)) := by
  induction hosts with
  | nil => simp
  | cons k ks ih =>
    have hk : k ∉ ks ∧ ks.Nodup := List.nodup_cons.mp hn
    rw [List.flatMap_cons]
    refine (List.Perm.append_left _ (ih hk.2)).trans ?_
    clear ih hn
    induction pods with
    | nil => simp
    | cons p rest ihp =>
      by_cases h1 : p.NodeName = k
      · have h2 : p.NodeName ∉ ks := by rw [h1]; exact hk.1
        simp only [List.filter_cons, h1, decide_True, if_true, List.mem_cons, true_or,
          List.cons_append]
        have h3 : ¬ k ∈ ks := hk.1
        simp only [h3, decide_False, Bool.false_eq_true, if_false]
        exact List.Perm.cons _ (by simpa [h1] using ihp)
      · by_cases h2 : p.NodeName ∈ ks
        · simp only [List.filter_cons, h1, h2, decide_True, decide_False, if_true,
            Bool.false_eq_true, if_false, List.mem_cons, or_true]
          exact List.perm_middle.trans (List.Perm.cons _ (by simpa using ihp))
        · simp only [List.filter_cons, h1, h2, decide_False, Bool.false_eq_true, if_false,
            List.mem_cons, or_self]
          simpa using ihp

theorem flatMap_podsOnNode_perm (pods : List Pod) (order : List String)
    (ho : order.Perm (GoMap.keys (podsOnNode pods))) :
    (order.flatMap (fun h => GoMap.get [] (podsOnNode pods) h)).Perm pods := by
  have h1 : (fun h => GoMap.get [] (podsOnNode pods) h) =
      fun h => pods.filter (fun p => p.NodeName = h) := by
    funext h
    exact podsOnNode_get pods h
  rw [h1]
  have hn : order.Nodup := ho.nodup_iff.mpr (nodup_keys_podsOnNode pods)
  refine (flatMap_filter_perm pods order hn).trans ?_
  have h2 : pods.filter (fun p => p.NodeName ∈ order) = pods := by
    rw [List.filter_eq_self]
    intro p hp
    have : p.NodeName ∈ GoMap.keys (podsOnNode pods) :=
      (mem_keys_podsOnNode pods p.NodeName).mpr ⟨p, hp, rfl⟩
    simpa using ho.mem_iff.mpr this
  rw [h2]

theorem keys_podsPerNode_perm (pods : List Pod) :
    (GoMap.keys (podsPerNode pods)).Perm (GoMap.keys (podsOnNode pods)) := by
  rw [List.perm_ext_iff_of_nodup (nodup_keys_podsPerNode pods) (nodup_keys_podsOnNode pods)]
  intro h
  rw [mem_keys_podsPerNode, mem_keys_podsOnNode]

theorem sum_podsPerNode (pods : List Pod) :
    ((GoMap.keys (podsPerNode pods)).map (fun h => GoMap.get 0 (podsPerNode pods) h)).sum =
      (pods.length : Int) := by
  have h1 := (flatMap_podsOnNode_perm pods _ (keys_podsPerNode_perm pods)).length_eq
  rw [List.length_flatMap] at h1
  rw [← h1]
  have h2 : (fun h => GoMap.get 0 (podsPerNode pods) h) =
      fun h => (((GoMap.get [] (podsOnNode pods) h).length : Nat) : Int) := by
    funext h
    rw [podsPerNode_get, podsOnNode_get]
  rw [h2]
  generalize GoMap.keys (podsPerNode pods) = ks
  induction ks with
  | nil => simp
  | cons k ks ih => simp [ih]

theorem len_podsPerNode (pods : List Pod) :
    GoMap.len (podsPerNode pods) = (((pods.map (fun p => p.NodeName)).toFinset.card : Nat) : Int) := by
  have h1 : (GoMap.keys (podsPerNode pods)).toFinset = (pods.map (fun p => p.NodeName)).toFinset := by
    ext h
    simp [mem_keys_podsPerNode]
  have h2 := List.toFinset_card_of_nodup (nodup_keys_podsPerNode pods)
  rw [h1] at h2
  rw [h2]
  simp [GoMap.len, GoMap.keys]

theorem len_podsPerNode_pos (pods : List Pod) (hp : pods ≠ []) :
    0 < GoMap.len (podsPerNode pods) := by
  obtain ⟨p, rest, rfl⟩ := List.exists_cons_of_ne_nil hp
  have h1 : p.NodeName ∈ GoMap.keys (podsPerNode (p :: rest)) :=
    (mem_keys_podsPerNode _ _).mpr ⟨p, by simp, rfl⟩
  have h2 : 0 < (GoMap.keys (podsPerNode (p :: rest))).length := List.length_pos_of_mem h1
  simp only [GoMap.keys, List.length_map] at h2
  simp only [GoMap.len]
  omega

/-! ## Target -/

theorem idealPodsPerNode_natCast (T n : Nat) (hn : 1 ≤ n) :
    idealPodsPerNode (T : Int) (n : Int) = .ok (adjustIdeal ((T / n : Nat) : Int)) := by
  have h0 : ¬ ((n : Int) = 0) := by omega
  have h1 : Int.tdiv (T : Int) (n : Int) = ((T / n : Nat) : Int) := by
    rw [Int.tdiv_eq_ediv (by omega) (by omega)]
    norm_cast
  simp [idealPodsPerNode, goDiv, h0, h1]

theorem idealPodsPerNode_pods (pods : List Pod) (hp : pods ≠ []) :
    idealPodsPerNode (pods.length : Int) (GoMap.len (podsPerNode pods)) =
      .ok (adjustIdeal
        ((pods.length / (pods.map (fun p => p.NodeName)).toFinset.card : Nat) : Int)) := by
  have h1 := len_podsPerNode_pos pods hp
  rw [len_podsPerNode] at h1 ⊢
  exact idealPodsPerNode_natCast _ _ (by omega)

/-! ## Adjustments -/

theorem foldl_adjust_mem_keys (ideal : Int) (visited : List (String × Int)) (acc : GoMap Int)
    (h : String) :
    h ∈ GoMap.keys (visited.foldl (fun adj entry => GoMap.set adj entry.1 (entry.2 - ideal)) acc) ↔
      h ∈ GoMap.keys acc ∨ h ∈ visited.map Prod.fst := by
  induction visited generalizing acc with
  | nil => simp
  | cons e rest ih =>
    rw [List.foldl_cons, ih, GoMap.mem_keys_set]
    simp only [List.map_cons, List.mem_cons]
    tauto

theorem foldl_adjust_nodup (ideal : Int) (visited : List (String × Int)) (acc : GoMap Int)
    (ha : (GoMap.keys acc).Nodup) :
    (GoMap.keys (visited.foldl (fun adj entry => GoMap.set adj entry.1 (entry.2 - ideal))
      acc)).Nodup := by
  induction visited generalizing acc with
  | nil => exact ha
  | cons e rest ih =>
    rw [List.foldl_cons]
    exact ih _ (GoMap.nodup_keys_set _ _ _ ha)

theorem foldl_adjust_get_of_not_mem (ideal : Int) (visited : List (String × Int))
    (acc : GoMap Int) (h : String) (hh : h ∉ visited.map Prod.fst) :
    GoMap.get 0 (visited.foldl (fun adj entry => GoMap.set adj entry.1 (entry.2 - ideal)) acc) h =
      GoMap.get 0 acc h := by
  induction visited generalizing acc with
  | nil => rfl
  | cons e rest ih =>
    have h1 : ¬ e.1 = h ∧ h ∉ rest.map Prod.fst := by
      constructor
      · intro e1
        exact hh (by simp [e1])
      · intro e1
        exact hh (by simp only [List.map_cons, List.mem_cons]; exact Or.inr e1)
    rw [List.foldl_cons, ih _ h1.2, GoMap.get_set]
    simp [h1.1]

theorem foldl_adjust_get_of_mem (ideal : Int) (visited : List (String × Int))
    (acc : GoMap Int) (h : String) (v : Int) (hn : (visited.map Prod.fst).Nodup)
    (hv : (h, v) ∈ visited) :
    GoMap.get 0 (visited.foldl (fun adj entry => GoMap.set adj entry.1 (entry.2 - ideal)) acc) h =
      v - ideal := by
  induction visited generalizing acc with
  | nil => simp at hv
  | cons e rest ih =>
    have hn2 : e.1 ∉ rest.map Prod.fst ∧ (rest.map Prod.fst).Nodup := by
      simpa using hn
    rw [List.foldl_cons]
    rcases List.mem_cons.mp hv with h1 | h1
    · subst h1
      rw [foldl_adjust_get_of_not_mem _ _ _ _ hn2.1, GoMap.get_set]
      simp
    · exact ih _ hn2.2 h1

/-- The adjustments computed from any enumeration of a map: same keys, and each
key holds its count minus the target. -/
theorem computeAdjustments_spec (ideal : Int) (m visited : GoMap Int)
    (hm : (GoMap.keys m).Nodup) (hv : visited.Perm m) :
    (GoMap.keys (computeAdjustments ideal visited)).Nodup ∧
      (GoMap.keys (computeAdjustments ideal visited)).Perm (GoMap.keys m) ∧
      ∀ h ∈ GoMap.keys m,
        GoMap.get 0 (computeAdjustments ideal visited) h = GoMap.get 0 m h - ideal := by
  have hvk : (visited.map Prod.fst).Perm (GoMap.keys m) := hv.map Prod.fst
  have hvn : (visited.map Prod.fst).Nodup := hvk.nodup_iff.mpr hm
  have hnd : (GoMap.keys (computeAdjustments ideal visited)).Nodup :=
    foldl_adjust_nodup ideal visited [] (by simp [GoMap.keys])
  refine ⟨hnd, ?_, ?_⟩
  · rw [List.perm_ext_iff_of_nodup hnd hm]
    intro h
    have h1 := foldl_adjust_mem_keys ideal visited [] h
    have h2 : h ∉ GoMap.keys ([] : GoMap Int) := by simp [GoMap.keys]
    rw [computeAdjustments, h1, ← hvk.mem_iff]
    simp [h2]
  · intro h hh
    have h1 : (h, GoMap.get 0 m h) ∈ visited :=
      hv.mem_iff.mpr (GoMap.mem_of_mem_keys 0 m h hh)
    exact foldl_adjust_get_of_mem ideal visited [] h _ hvn h1

theorem sum_map_sub_const (f : String → Int) (c : Int) (ks : List String) :
    (ks.map (fun h => f h - c)).sum = (ks.map f).sum - c * (ks.length : Int) := by
  induction ks with
  | nil => simp
  | cons k ks ih =>
    simp only [List.map_cons, List.sum_cons, ih, List.length_cons]
    push_cast
    ring

/-! ## Deletion -/

theorem foldl_deletePod_calls (outcome : Nat → Option String) (sel : List Pod) (eff : Effects) :
    (sel.foldl (deletePod outcome) eff).calls = eff.calls ++ sel.map deleteCallOf := by
  induction sel generalizing eff with
  | nil => simp
  | cons p rest ih =>
    rw [List.foldl_cons, ih]
    have h1 : (deletePod outcome eff p).calls = eff.calls ++ [deleteCallOf p] := by
      unfold deletePod
      cases outcome eff.calls.length <;> rfl
    rw [h1]
    simp

theorem foldl_processNode_calls (outcome : Nat → Option String) (pon : GoMap (List Pod))
    (adj : GoMap Int) (visited : List (String × Int)) (eff : Effects) :
    (visited.foldl (processNode outcome pon adj) eff).calls =
      eff.calls ++ (selectedPods pon adj visited).map deleteCallOf := by
  induction visited generalizing eff with
  | nil => simp [selectedPods]
  | cons e rest ih =>
    rw [List.foldl_cons, ih]
    by_cases ha : GoMap.get 0 adj e.1 > 0
    · simp [processNode, selectedPods, ha, foldl_deletePod_calls]
    · simp [processNode, selectedPods, ha]

theorem deleteLoop_calls (outcome : Nat → Option String) (pon : GoMap (List Pod))
    (adj : GoMap Int) (visited : List (String × Int)) :
    (deleteLoop outcome pon adj visited).calls = (selectedPods pon adj visited).map deleteCallOf := by
  simp [deleteLoop, foldl_processNode_calls]

theorem mem_selectedPods (pon : GoMap (List Pod)) (adj : GoMap Int)
    (visited : List (String × Int)) (p : Pod) :
    p ∈ selectedPods pon adj visited ↔
      ∃ e ∈ visited, GoMap.get 0 adj e.1 > 0 ∧
        p ∈ selectPods (GoMap.get [] pon e.1) (GoMap.get 0 adj e.1) := by
  simp only [selectedPods, List.mem_flatMap]
  constructor
  · rintro ⟨e, he, hp⟩
    by_cases ha : GoMap.get 0 adj e.1 > 0
    · rw [if_pos ha] at hp
      exact ⟨e, he, ha, hp⟩
    · rw [if_neg ha] at hp
      simp at hp
  · rintro ⟨e, he, ha, hp⟩
    exact ⟨e, he, by rw [if_pos ha]; exact hp⟩

/-! ## The pass -/

theorem main_nil (range1 range2 : GoMap Int → List (String × Int))
    (outcome : Nat → Option String) :
    main range1 range2 outcome [] = .error "runtime error: integer divide by zero" := by
  rfl

theorem main_ok (range1 range2 : GoMap Int → List (String × Int))
    (outcome : Nat → Option String) (pods : List Pod) (hp : pods ≠ []) :
    ∃ ideal, idealPodsPerNode (pods.length : Int) (GoMap.len (podsPerNode pods)) = .ok ideal ∧
      main range1 range2 outcome pods =
        .ok { podsPerNode := podsPerNode pods,
              podsOnNode := podsOnNode pods,
              idealPodsPerNode := ideal,
              adjustmentsPerNode := computeAdjustments ideal (range1 (podsPerNode pods)),
              effects := deleteLoop outcome (podsOnNode pods)
                (computeAdjustments ideal (range1 (podsPerNode pods)))
                (range2 (podsPerNode pods)) } := by
  refine ⟨_, idealPodsPerNode_pods pods hp, ?_⟩
  have h := idealPodsPerNode_pods pods hp
  simp only [podsPerNode] at h
  simp only [main, h]
  rfl

theorem mem_selectPods (pods : List Pod) (s : Int) (p : Pod) (hp : p ∈ selectPods pods s) :
    p ∈ pods ∧ isPodPartOfDeployment p = true := by
  rw [selectPods_eq] at hp
  have h1 := List.mem_of_mem_take hp
  simpa using h1

/-- Every pod handed to `Delete` sits on a host whose count exceeds the target. -/
theorem selectedPods_overloaded (pods : List Pod) (ideal : Int) (visited1 visited2 : GoMap Int)
    (h1 : visited1.Perm (podsPerNode pods)) (p : Pod)
    (hp : p ∈ selectedPods (podsOnNode pods) (computeAdjustments ideal visited1) visited2) :
    p ∈ pods ∧ isPodPartOfDeployment p = true ∧
      ideal < GoMap.get 0 (podsPerNode pods) p.NodeName := by
  obtain ⟨e, _, ha, hsel⟩ := (mem_selectedPods _ _ _ _).mp hp
  have h2 := mem_selectPods _ _ _ hsel
  rw [podsOnNode_get] at h2
  have h3 : p ∈ pods ∧ p.NodeName = e.1 := by simpa using h2.1
  refine ⟨h3.1, h2.2, ?_⟩
  obtain ⟨_, hperm, hget⟩ :=
    computeAdjustments_spec ideal (podsPerNode pods) visited1 (nodup_keys_podsPerNode pods) h1
  have hk : e.1 ∈ GoMap.keys (podsPerNode pods) :=
    (mem_keys_podsPerNode pods e.1).mpr ⟨p, h3.1, h3.2⟩
  rw [hget e.1 hk] at ha
  rw [h3.2]
  omega

/-! ## Selection per host -/

theorem selectPods_nonpos (pods : List Pod) (s : Int) (hs : s ≤ 0) : selectPods pods s = [] := by
  have h : (max s 0).toNat = 0 := by omega
  rw [selectPods_eq, h, List.take_zero]

theorem length_selectPods_le (pods : List Pod) (s : Int) :
    ((selectPods pods s).length : Int) ≤ max s 0 := by
  rw [selectPods_eq, List.length_take]
  omega

theorem length_selectPods_le_length (pods : List Pod) (s : Int) :
    (selectPods pods s).length ≤ pods.length := by
  rw [selectPods_eq]
  exact ((List.take_sublist _ _).trans (List.filter_sublist pods)).length_le

/-- The pods handed to `Delete`, host by host: each entry visited contributes
`selectPods` of the pods of its host with the count of the host minus the
target, which is empty when that difference is not positive. -/
theorem selectedPods_eq_flatMap (pods : List Pod) (ideal : Int) (visited1 visited2 : GoMap Int)
    (h1 : visited1.Perm (podsPerNode pods))
    (h2 : ∀ e ∈ visited2, e.1 ∈ GoMap.keys (podsPerNode pods)) :
    selectedPods (podsOnNode pods) (computeAdjustments ideal visited1) visited2 =
      (visited2.map Prod.fst).flatMap (fun h =>
        selectPods (pods.filter (fun p => p.NodeName = h))
          (GoMap.get 0 (podsPerNode pods) h - ideal)) := by
  obtain ⟨_, _, hget⟩ :=
    computeAdjustments_spec ideal (podsPerNode pods) visited1 (nodup_keys_podsPerNode pods) h1
  rw [List.flatMap_map]
  unfold selectedPods
  apply List.flatMap_congr
  intro e he
  rw [hget e.1 (h2 e he), podsOnNode_get]
  by_cases hpos : GoMap.get 0 (podsPerNode pods) e.1 - ideal > 0
  · rw [if_pos hpos]
  · rw [if_neg hpos, selectPods_nonpos _ _ (by omega)]

/-- Blocks of pods indexed by host, each made of pods of that host: the pods
of host `h` in the concatenation of the blocks are the block of `h`. -/
theorem filter_flatMap_block (block : String → List Pod)
    (hb : ∀ k, ∀ p ∈ block k, p.NodeName = k) (ks : List String) (hn : ks.Nodup) (h : String) :
    (ks.flatMap block).filter (fun p => p.NodeName = h) = if h ∈ ks then block h else [] := by
  induction ks with
  | nil => simp
  | cons k rest ih =>
    have hk : k ∉ rest ∧ rest.Nodup := List.nodup_cons.mp hn
    rw [List.flatMap_cons, List.filter_append, ih hk.2]
    by_cases hkh : k = h
    · subst hkh
      have h1 : (block k).filter (fun p => p.NodeName = k) = block k := by
        rw [List.filter_eq_self]
        intro p hp
        simp [hb k p hp]
      simp [h1, hk.1]
    · have h1 : (block k).filter (fun p => p.NodeName = h) = [] := by
        rw [List.filter_eq_nil_iff]
        intro p hp
        have := hb k p hp
        simp [this, hkh]
      have h2 : (h ∈ k :: rest) ↔ h ∈ rest := by
        simp only [List.mem_cons]
        constructor
        · rintro (h3 | h3)
          · exact absurd h3.symm hkh
          · exact h3
        · exact Or.inr
      simp only [h1, List.nil_append, h2]

theorem mem_selectPods_filter (pods : List Pod) (k : String) (s : Int) (p : Pod)
    (hp : p ∈ selectPods (pods.filter (fun q => q.NodeName = k)) s) : p.NodeName = k := by
  have h1 := (mem_selectPods _ _ _ hp).1
  simpa using (List.mem_filter.mp h1).2

/-- A concatenation of blocks in which a single entry has a non-empty block. -/
theorem flatMap_single_block {α β : Type} (f : α → List β) (a : α) (l : List α)
    (hn : l.Nodup) (ha : a ∈ l) (hf : ∀ e ∈ l, e ≠ a → f e = []) : l.flatMap f = f a := by
  induction l with
  | nil => simp at ha
  | cons x xs ih =>
    have hx : x ∉ xs ∧ xs.Nodup := List.nodup_cons.mp hn
    rw [List.flatMap_cons]
    by_cases hxa : x = a
    · subst hxa
      have h1 : xs.flatMap f = [] := by
        rw [List.flatMap_eq_nil_iff]
        intro e he
        exact hf e (List.mem_cons_of_mem _ he) (fun h => hx.1 (h ▸ he))
      rw [h1, List.append_nil]
    · have h1 : f x = [] := hf x (List.mem_cons_self _ _) hxa
      have h2 : a ∈ xs := by
        rcases List.mem_cons.mp ha with h | h
        · exact absurd h.symm hxa
        · exact h
      rw [h1, List.nil_append]
      exact ih hx.2 h2 (fun e he hne => hf e (List.mem_cons_of_mem _ he) hne)

theorem sum_map_le_const (f : String → Int) (c : Int) (ks : List String)
    (hf : ∀ k ∈ ks, f k ≤ c) : (ks.map f).sum ≤ c * (ks.length : Int) := by
  induction ks with
  | nil => simp
  | cons k rest ih =>
    have h1 := hf k (List.mem_cons_self _ _)
    have h2 := ih (fun k hk => hf k (List.mem_cons_of_mem _ hk))
    simp only [List.map_cons, List.sum_cons, List.length_cons]
    push_cast
    linarith

theorem length_flatMap_le_sum (block : String → List Pod) (g : String → Int) (ks : List String)
    (hb : ∀ k ∈ ks, ((block k).length : Int) ≤ g k) :
    (((ks.flatMap block).length : Nat) : Int) ≤ (ks.map g).sum := by
  induction ks with
  | nil => simp
  | cons k rest ih =>
    have h1 := hb k (List.mem_cons_self _ _)
    have h2 := ih (fun k hk => hb k (List.mem_cons_of_mem _ hk))
    simp only [List.flatMap_cons, List.length_append, List.map_cons, List.sum_cons]
    push_cast
    linarith

/-! ## The pass, host by host -/

/-- The run of the pass on a non-empty list, with its `Delete` calls written
host by host in the order `range2` visits the hosts. -/
theorem main_calls (range1 range2 : GoMap Int → List (String × Int))
    (outcome : Nat → Option String) (pods : List Pod) (hp : pods ≠ [])
    (h1 : (range1 (podsPerNode pods)).Perm (podsPerNode pods))
    (h2 : (range2 (podsPerNode pods)).Perm (podsPerNode pods)) :
    ∃ st, main range1 range2 outcome pods = .ok st ∧
      st.podsPerNode = podsPerNode pods ∧ st.podsOnNode = podsOnNode pods ∧
      idealPodsPerNode (pods.length : Int) (GoMap.len (podsPerNode pods)) =
        .ok st.idealPodsPerNode ∧
      st.adjustmentsPerNode =
        computeAdjustments st.idealPodsPerNode (range1 (podsPerNode pods)) ∧
      st.effects.calls =
        ((((range2 (podsPerNode pods)).map Prod.fst).flatMap (fun h =>
          selectPods (pods.filter (fun p => p.NodeName = h))
            (GoMap.get 0 (podsPerNode pods) h - st.idealPodsPerNode))).map deleteCallOf) := by
  obtain ⟨ideal, hi, hm⟩ := main_ok range1 range2 outcome pods hp
  refine ⟨_, hm, rfl, rfl, hi, rfl, ?_⟩
  have hk : ∀ e ∈ range2 (podsPerNode pods), e.1 ∈ GoMap.keys (podsPerNode pods) := by
    intro e he
    exact List.mem_map.mpr ⟨e, h2.mem_iff.mp he, rfl⟩
  show (deleteLoop outcome (podsOnNode pods)
    (computeAdjustments ideal (range1 (podsPerNode pods))) (range2 (podsPerNode pods))).calls = _
  rw [deleteLoop_calls, selectedPods_eq_flatMap pods ideal _ _ h1 hk]

/-- The target of a run on a non-empty list lies between 1 and the quotient. -/
theorem adjustIdeal_bounds (pods : List Pod) (hp : pods ≠ []) :
    ∃ ideal, idealPodsPerNode (pods.length : Int) (GoMap.len (podsPerNode pods)) = .ok ideal ∧
      1 ≤ ideal ∧ ideal ≤ Int.tdiv (pods.length : Int) (GoMap.len (podsPerNode pods)) ∧
      ideal * GoMap.len (podsPerNode pods) ≤ (pods.length : Int) := by
  have hpos := len_podsPerNode_pos pods hp
  have hsum := sum_podsPerNode pods
  have hone : ∀ k ∈ GoMap.keys (podsPerNode pods), 1 ≤ GoMap.get 0 (podsPerNode pods) k := by
    intro k hk
    obtain ⟨p, hpm, hn⟩ := (mem_keys_podsPerNode pods k).mp hk
    rw [podsPerNode_get]
    have h1 : p ∈ pods.filter (fun p => p.NodeName = k) := by simp [hpm, hn]
    have h2 := List.length_pos_of_mem h1
    omega
  have hle : GoMap.len (podsPerNode pods) ≤ (pods.length : Int) := by
    have h3 := sum_map_le_const (fun k => -GoMap.get 0 (podsPerNode pods) k) (-1)
      (GoMap.keys (podsPerNode pods)) (fun k hk => by
        have h5 := hone k hk
        show -GoMap.get 0 (podsPerNode pods) k ≤ -1
        omega)
    have h4 : ((GoMap.keys (podsPerNode pods)).map
        (fun k => -GoMap.get 0 (podsPerNode pods) k)).sum =
        -((GoMap.keys (podsPerNode pods)).map (fun k => GoMap.get 0 (podsPerNode pods) k)).sum := by
      generalize GoMap.keys (podsPerNode pods) = ks
      induction ks with
      | nil => simp
      | cons k rest ih =>
        simp only [List.map_cons, List.sum_cons, ih]
        ring
    rw [h4, hsum] at h3
    simp only [GoMap.keys, List.length_map] at h3
    simp only [GoMap.len]
    omega
  have hn0 : ¬ (GoMap.len (podsPerNode pods) = 0) := by omega
  have hdiv : Int.tdiv (pods.length : Int) (GoMap.len (podsPerNode pods)) =
      (pods.length : Int) / GoMap.len (podsPerNode pods) :=
    Int.tdiv_eq_ediv (by omega) (by omega)
  have hq1 : 1 ≤ (pods.length : Int) / GoMap.len (podsPerNode pods) :=
    (Int.le_ediv_iff_mul_le hpos).mpr (by omega)
  have hq2 : (pods.length : Int) / GoMap.len (podsPerNode pods) * GoMap.len (podsPerNode pods) ≤
      (pods.length : Int) := Int.ediv_mul_le _ (by omega)
  refine ⟨adjustIdeal (Int.tdiv (pods.length : Int) (GoMap.len (podsPerNode pods))), ?_, ?_, ?_, ?_⟩
  · simp [idealPodsPerNode, goDiv, hn0]
  · rw [hdiv]
    unfold adjustIdeal
    split <;> omega
  · unfold adjustIdeal
    split <;> omega
  · rw [hdiv]
    generalize (pods.length : Int) / GoMap.len (podsPerNode pods) = q at hq1 hq2 ⊢
    unfold adjustIdeal
    split
    · nlinarith
    · exact hq2

/-! ## Unscheduled pods only -/

theorem foldl_aggregateStep_unscheduled (pods : List Pod) (hu : ∀ p ∈ pods, p.NodeName = "")
    (c : Int) (l : List Pod) :
    pods.foldl aggregateStep ([("", c)], [("", l)]) =
      ([("", c + (pods.length : Int))], [("", l ++ pods)]) := by
  induction pods generalizing c l with
  | nil => simp
  | cons p rest ih =>
    have h1 : p.NodeName = "" := hu p (List.mem_cons_self _ _)
    have h2 : aggregateStep ([("", c)], [("", l)]) p = ([("", c + 1)], [("", l ++ [p])]) := by
      simp [aggregateStep, GoMap.set, GoMap.get, h1]
    rw [List.foldl_cons, h2, ih (fun q hq => hu q (List.mem_cons_of_mem _ hq))]
    simp only [List.length_cons, List.append_assoc, List.singleton_append]
    push_cast
    rw [Int.add_assoc, Int.add_comm 1]

theorem aggregate_unscheduled (pods : List Pod) (hp : pods ≠ [])
    (hu : ∀ p ∈ pods, p.NodeName = "") :
    podsPerNode pods = [("", (pods.length : Int))] ∧ podsOnNode pods = [("", pods)] := by
  obtain ⟨p, rest, rfl⟩ := List.exists_cons_of_ne_nil hp
  have h1 : p.NodeName = "" := hu p (List.mem_cons_self _ _)
  have h2 : aggregateStep ([], []) p = ([("", 1)], [("", [p])]) := by
    simp [aggregateStep, GoMap.set, GoMap.get, h1]
  have h3 := foldl_aggregateStep_unscheduled rest
    (fun q hq => hu q (List.mem_cons_of_mem _ hq)) 1 [p]
  have h4 : aggregate (p :: rest) =
      ([("", 1 + (rest.length : Int))], [("", [p] ++ rest)]) := by
    rw [aggregate, List.foldl_cons, h2, h3]
  constructor
  · rw [podsPerNode, h4]
    simp only [List.length_cons]
    push_cast
    rw [Int.add_comm]
  · rw [podsOnNode, h4]
    rfl

/-! ## Outcomes of the deletion calls -/

/-- The `Delete` calls of a run, whatever the calls return. -/
theorem deleteCalls_main (range1 range2 : GoMap Int → List (String × Int))
    (outcome : Nat → Option String) (pods : List Pod) :
    deleteCalls (main range1 range2 outcome pods) =
      match idealPodsPerNode (pods.length : Int) (GoMap.len (podsPerNode pods)) with
      | .error _ => []
      | .ok ideal =>
        (selectedPods (podsOnNode pods) (computeAdjustments ideal (range1 (podsPerNode pods)))
          (range2 (podsPerNode pods))).map deleteCallOf := by
  unfold main
  simp only [podsPerNode, podsOnNode]
  cases idealPodsPerNode (pods.length : Int) (GoMap.len (aggregate pods).1) with
  | error e => rfl
  | ok ideal => exact deleteLoop_calls _ _ _ _

theorem foldl_deletePod_failures_some (err : String) (sel : List Pod) (eff : Effects) :
    (sel.foldl (deletePod (fun _ => some err)) eff).failures =
      eff.failures ++ sel.map (fun p => (p.Name, err)) := by
  induction sel generalizing eff with
  | nil => simp
  | cons p rest ih =>
    rw [List.foldl_cons, ih]
    simp [deletePod]

theorem foldl_deletePod_failures_none (sel : List Pod) (eff : Effects) :
    (sel.foldl (deletePod (fun _ => none)) eff).failures = eff.failures := by
  induction sel generalizing eff with
  | nil => simp
  | cons p rest ih =>
    rw [List.foldl_cons, ih]
    simp [deletePod]

theorem deleteLoop_failures_some (err : String) (pon : GoMap (List Pod)) (adj : GoMap Int)
    (visited : List (String × Int)) :
    (deleteLoop (fun _ => some err) pon adj visited).failures =
      (selectedPods pon adj visited).map (fun p => (p.Name, err)) := by
  have h : ∀ eff : Effects,
      (visited.foldl (processNode (fun _ => some err) pon adj) eff).failures =
        eff.failures ++ (selectedPods pon adj visited).map (fun p => (p.Name, err)) := by
    induction visited with
    | nil => simp [selectedPods]
    | cons e rest ih =>
      intro eff
      rw [List.foldl_cons, ih]
      by_cases ha : GoMap.get 0 adj e.1 > 0
      · simp [processNode, selectedPods, ha, foldl_deletePod_failures_some]
      · simp [processNode, selectedPods, ha]
  simpa [deleteLoop] using h ⟨[], []⟩

theorem deleteLoop_failures_none (pon : GoMap (List Pod)) (adj : GoMap Int)
    (visited : List (String × Int)) :
    (deleteLoop (fun _ => none) pon adj visited).failures = [] := by
  have h : ∀ eff : Effects,
      (visited.foldl (processNode (fun _ => none) pon adj) eff).failures = eff.failures := by
    induction visited with
    | nil => simp
    | cons e rest ih =>
      intro eff
      rw [List.foldl_cons, ih]
      by_cases ha : GoMap.get 0 adj e.1 > 0
      · simp [processNode, ha, foldl_deletePod_failures_none]
      · simp [processNode, ha]
  simpa [deleteLoop] using h ⟨[], []⟩

/-! ## The claims -/

/-- C1: for every list of pods and every integer `s`, `selectPods pods s` is the
first `max s 0` elements of the sublist of the pods for which
`isPodPartOfDeployment` holds, in the original order. -/
theorem selectPods_first_eligible (pods : List Pod) (s : Int) :
    selectPods pods s = (pods.filter isPodPartOfDeployment).take (max s 0).toNat :=
  selectPods_eq pods s

/-- C2: a pod is part of a deployment exactly when one of its owner references,
at whatever position, has kind "ReplicaSet"; every pod returned by `selectPods`
has such an owner reference, and a pod without owner references or with only
other kinds of owners is never returned. -/
theorem eligible_iff_replicaSet_owner (pod : Pod) (pods : List Pod) (s : Int) :
    (isPodPartOfDeployment pod = true ↔ ∃ o ∈ pod.OwnerReferences, o.Kind = "ReplicaSet") ∧
      (∀ (before after : List OwnerReference) (o : OwnerReference),
        pod.OwnerReferences = before ++ o :: after → o.Kind = "ReplicaSet" →
          isPodPartOfDeployment pod = true) ∧
      (pod ∈ selectPods pods s → ∃ o ∈ pod.OwnerReferences, o.Kind = "ReplicaSet") ∧
      (pod.OwnerReferences = [] → pod ∉ selectPods pods s) ∧
      ((∀ o ∈ pod.OwnerReferences, o.Kind ≠ "ReplicaSet") → pod ∉ selectPods pods s) := by
  have hiff : isPodPartOfDeployment pod = true ↔
      ∃ o ∈ pod.OwnerReferences, o.Kind = "ReplicaSet" :=
    isPodPartOfDeploymentLoop_iff pod.OwnerReferences
  refine ⟨hiff, ?_, ?_, ?_, ?_⟩
  · intro before after o ho hk
    exact hiff.mpr ⟨o, by rw [ho]; simp, hk⟩
  · intro hp
    exact hiff.mp (mem_selectPods pods s pod hp).2
  · intro hnil hp
    obtain ⟨o, ho, _⟩ := hiff.mp (mem_selectPods pods s pod hp).2
    rw [hnil] at ho
    simp at ho
  · intro hall hp
    obtain ⟨o, ho, hk⟩ := hiff.mp (mem_selectPods pods s pod hp).2
    exact hall o ho hk

theorem eligible_iff_replicaSet_owner_witness :
    rsPod "p3" "A" ∈ selectPods fivePods 3 ∧
      (∃ o ∈ (rsPod "p3" "A").OwnerReferences, o.Kind = "ReplicaSet") ∧
      (dsPod "p2" "A").OwnerReferences ≠ [] ∧ dsPod "p2" "A" ∉ selectPods fivePods 3 ∧
      barePod "p0" "A" ∉ selectPods fivePods 3 :=
  ⟨by decide,
   (eligible_iff_replicaSet_owner (rsPod "p3" "A") fivePods 3).2.2.1 (by decide),
   by decide,
   (eligible_iff_replicaSet_owner (dsPod "p2" "A") fivePods 3).2.2.2.2 (by decide),
   (eligible_iff_replicaSet_owner (barePod "p0" "A") fivePods 3).2.2.2.1 rfl⟩

/-- C3: for a total of `T` pods and `n ≥ 1` distinct host keys the target of the
pass is `T / n` (floor) when `T / n ≤ 5` and `T / n - 5` when `T / n > 5`, both
as a function of the two lengths and as the value held by a run of the pass on
any pod list with these counts; `T = 23, n = 4` gives 5 and `T = 48, n = 4`
gives 7. -/
theorem target_formula (T n : Nat) (hn : 1 ≤ n) :
    idealPodsPerNode (T : Int) (n : Int) =
        .ok (if T / n ≤ 5 then ((T / n : Nat) : Int) else ((T / n : Nat) : Int) - 5) ∧
      (∀ (range1 range2 : GoMap Int → List (String × Int)) (outcome : Nat → Option String)
        (pods : List Pod), pods.length = T →
          (pods.map (fun p => p.NodeName)).toFinset.card = n →
          ∃ st, main range1 range2 outcome pods = .ok st ∧
            st.idealPodsPerNode =
              if T / n ≤ 5 then ((T / n : Nat) : Int) else ((T / n : Nat) : Int) - 5) ∧
      idealPodsPerNode 23 4 = .ok 5 ∧ idealPodsPerNode 48 4 = .ok 7 := by
  have hadj : adjustIdeal ((T / n : Nat) : Int) =
      if T / n ≤ 5 then ((T / n : Nat) : Int) else ((T / n : Nat) : Int) - 5 := by
    unfold adjustIdeal
    by_cases h : T / n ≤ 5
    · have h2 : ¬ (((T / n : Nat) : Int) > 5) := by omega
      rw [if_neg h2, if_pos h]
    · have h2 : ((T / n : Nat) : Int) > 5 := by omega
      rw [if_pos h2, if_neg h]
  refine ⟨?_, ?_, rfl, rfl⟩
  · rw [idealPodsPerNode_natCast T n hn, hadj]
  · intro range1 range2 outcome pods hT hcard
    have hp : pods ≠ [] := by
      intro h
      subst h
      simp at hcard
      omega
    obtain ⟨ideal, hi, hm⟩ := main_ok range1 range2 outcome pods hp
    refine ⟨_, hm, ?_⟩
    rw [idealPodsPerNode_pods pods hp, hT, hcard, hadj] at hi
    injection hi with hi
    exact hi.symm

theorem target_formula_witness :
    1 ≤ 3 ∧ idealPodsPerNode ((6 : Nat) : Int) ((3 : Nat) : Int) = .ok 2 ∧
      ∃ st, main List.reverse id (fun _ => none) samplePods = .ok st ∧
        st.idealPodsPerNode = 2 :=
  ⟨by decide, (target_formula 6 3 (by decide)).1,
   (target_formula 6 3 (by decide)).2.1 List.reverse id (fun _ => none) samplePods
     (by decide) (by decide)⟩

/-- C4: for every pod list and host key `h`, `podsOnNode[h]` after the
aggregation loop is the sublist of the input made of the pods whose
`Spec.NodeName` is `h`, in their original order (the unscheduled pods under the
key ""); concatenating the per-host sequences over the keys, in any order,
gives a permutation of the input. -/
theorem podsOnNode_partitions_input (pods : List Pod) (h : String) (order : List String)
    (ho : order.Perm (GoMap.keys (podsOnNode pods))) :
    GoMap.get [] (podsOnNode pods) h = pods.filter (fun p => p.NodeName = h) ∧
      GoMap.get [] (podsOnNode pods) "" = pods.filter (fun p => p.NodeName = "") ∧
      (GoMap.get [] (podsOnNode pods) h).Sublist pods ∧
      (order.flatMap (fun k => GoMap.get [] (podsOnNode pods) k)).Perm pods := by
  refine ⟨podsOnNode_get pods h, podsOnNode_get pods "", ?_, flatMap_podsOnNode_perm pods order ho⟩
  rw [podsOnNode_get]
  exact List.filter_sublist pods

theorem podsOnNode_partitions_input_witness :
    List.Perm ["", "B", "A"] (GoMap.keys (podsOnNode samplePods)) ∧
      GoMap.get [] (podsOnNode samplePods) "A" =
        [rsPod "a1" "A", rsPod "a2" "A", rsPod "a3" "A", rsPod "a4" "A"] ∧
      (List.flatMap ["", "B", "A"] (fun k => GoMap.get [] (podsOnNode samplePods) k)).Perm
        samplePods :=
  ⟨by decide,
   by decide,
   (podsOnNode_partitions_input samplePods "A" ["", "B", "A"] (by decide)).2.2.2⟩

/-- C5: after the aggregation loop the counts of `podsPerNode`, summed over its
keys, give the length of the input, and for every key `h` the count
`podsPerNode[h]` is the length of `podsOnNode[h]`. -/
theorem podsPerNode_counts (pods : List Pod) (h : String) :
    ((GoMap.keys (podsPerNode pods)).map (fun k => GoMap.get 0 (podsPerNode pods) k)).sum =
        (pods.length : Int) ∧
      GoMap.get 0 (podsPerNode pods) h = ((GoMap.get [] (podsOnNode pods) h).length : Int) := by
  refine ⟨sum_podsPerNode pods, ?_⟩
  rw [podsPerNode_get, podsOnNode_get]

/-- C6: after aggregation the keys of `podsPerNode` and of `podsOnNode` are
exactly the `Spec.NodeName` values occurring in the input, each once, the empty
string among them exactly when some pod is unscheduled; every key has a count
of at least 1. -/
theorem aggregate_keys (pods : List Pod) (h : String) :
    (h ∈ GoMap.keys (podsPerNode pods) ↔ ∃ p ∈ pods, p.NodeName = h) ∧
      (h ∈ GoMap.keys (podsOnNode pods) ↔ ∃ p ∈ pods, p.NodeName = h) ∧
      ("" ∈ GoMap.keys (podsPerNode pods) ↔ ∃ p ∈ pods, p.NodeName = "") ∧
      (GoMap.keys (podsPerNode pods)).Nodup ∧ (GoMap.keys (podsOnNode pods)).Nodup ∧
      (GoMap.keys (podsPerNode pods)).toFinset = (pods.map (fun p => p.NodeName)).toFinset ∧
      (h ∈ GoMap.keys (podsPerNode pods) → 1 ≤ GoMap.get 0 (podsPerNode pods) h) := by
  refine ⟨mem_keys_podsPerNode pods h, mem_keys_podsOnNode pods h, mem_keys_podsPerNode pods "",
    nodup_keys_podsPerNode pods, nodup_keys_podsOnNode pods, ?_, ?_⟩
  · ext k
    simp [mem_keys_podsPerNode]
  · intro hk
    obtain ⟨p, hp, hn⟩ := (mem_keys_podsPerNode pods h).mp hk
    rw [podsPerNode_get]
    have h1 : p ∈ pods.filter (fun p => p.NodeName = h) := by simp [hp, hn]
    have h2 := List.length_pos_of_mem h1
    omega

theorem aggregate_keys_witness :
    "" ∈ GoMap.keys (podsPerNode samplePods) ∧ 1 ≤ GoMap.get 0 (podsPerNode samplePods) "" :=
  ⟨by decide, (aggregate_keys samplePods "").2.2.2.2.2.2 (by decide)⟩

/-- C7: on a non-empty pod list the pass returns, `adjustmentsPerNode` has
exactly the keys of `podsPerNode`, and each host `h` among them holds
`podsPerNode[h] - target`, the target being the adjusted ideal of that pass. -/
theorem adjustments_are_count_minus_target (range1 range2 : GoMap Int → List (String × Int))
    (outcome : Nat → Option String) (pods : List Pod)
    (h1 : (range1 (podsPerNode pods)).Perm (podsPerNode pods)) (hp : pods ≠ []) :
    ∃ st, main range1 range2 outcome pods = .ok st ∧
      st.podsPerNode = podsPerNode pods ∧
      idealPodsPerNode (pods.length : Int) (GoMap.len st.podsPerNode) = .ok st.idealPodsPerNode ∧
      (∀ h, h ∈ GoMap.keys st.adjustmentsPerNode ↔ h ∈ GoMap.keys st.podsPerNode) ∧
      (GoMap.keys st.adjustmentsPerNode).Nodup ∧
      ∀ h ∈ GoMap.keys st.podsPerNode,
        GoMap.get 0 st.adjustmentsPerNode h =
          GoMap.get 0 st.podsPerNode h - st.idealPodsPerNode := by
  obtain ⟨ideal, hi, hm⟩ := main_ok range1 range2 outcome pods hp
  obtain ⟨hnd, hperm, hget⟩ := computeAdjustments_spec ideal (podsPerNode pods)
    (range1 (podsPerNode pods)) (nodup_keys_podsPerNode pods) h1
  exact ⟨_, hm, rfl, hi, fun h => hperm.mem_iff, hnd, hget⟩

theorem adjustments_are_count_minus_target_witness :
    samplePods ≠ [] ∧
      ∃ st, main List.reverse id (fun _ => none) samplePods = .ok st ∧
        st.podsPerNode = podsPerNode samplePods ∧
        idealPodsPerNode (samplePods.length : Int) (GoMap.len st.podsPerNode) =
          .ok st.idealPodsPerNode ∧
        (∀ h, h ∈ GoMap.keys st.adjustmentsPerNode ↔ h ∈ GoMap.keys st.podsPerNode) ∧
        (GoMap.keys st.adjustmentsPerNode).Nodup ∧
        ∀ h ∈ GoMap.keys st.podsPerNode,
          GoMap.get 0 st.adjustmentsPerNode h =
            GoMap.get 0 st.podsPerNode h - st.idealPodsPerNode :=
  ⟨by decide,
   adjustments_are_count_minus_target List.reverse id (fun _ => none) samplePods
     (List.reverse_perm _) (by decide)⟩

/-- C8: on a non-empty pod list with `T` pods and `n` distinct host keys the
adjustments, summed over all hosts, give `T - target * n`. -/
theorem adjustments_sum (range1 range2 : GoMap Int → List (String × Int))
    (outcome : Nat → Option String) (pods : List Pod)
    (h1 : (range1 (podsPerNode pods)).Perm (podsPerNode pods)) (hp : pods ≠ []) :
    ∃ st, main range1 range2 outcome pods = .ok st ∧
      GoMap.len st.podsPerNode =
        (((pods.map (fun p => p.NodeName)).toFinset.card : Nat) : Int) ∧
      ((GoMap.keys st.adjustmentsPerNode).map (fun h => GoMap.get 0 st.adjustmentsPerNode h)).sum =
        (pods.length : Int) - st.idealPodsPerNode * GoMap.len st.podsPerNode := by
  obtain ⟨ideal, hi, hm⟩ := main_ok range1 range2 outcome pods hp
  obtain ⟨hnd, hperm, hget⟩ := computeAdjustments_spec ideal (podsPerNode pods)
    (range1 (podsPerNode pods)) (nodup_keys_podsPerNode pods) h1
  refine ⟨_, hm, len_podsPerNode pods, ?_⟩
  show ((GoMap.keys (computeAdjustments ideal (range1 (podsPerNode pods)))).map
      (fun h => GoMap.get 0 (computeAdjustments ideal (range1 (podsPerNode pods))) h)).sum =
    (pods.length : Int) - ideal * GoMap.len (podsPerNode pods)
  rw [(hperm.map _).sum_eq]
  have h2 : (GoMap.keys (podsPerNode pods)).map
      (fun h => GoMap.get 0 (computeAdjustments ideal (range1 (podsPerNode pods))) h) =
      (GoMap.keys (podsPerNode pods)).map
        (fun h => GoMap.get 0 (podsPerNode pods) h - ideal) :=
    List.map_congr_left hget
  rw [h2, sum_map_sub_const, sum_podsPerNode]
  simp [GoMap.len, GoMap.keys]

theorem adjustments_sum_witness :
    samplePods ≠ [] ∧
      ∃ st, main List.reverse id (fun _ => none) samplePods = .ok st ∧
        GoMap.len st.podsPerNode =
          (((samplePods.map (fun p => p.NodeName)).toFinset.card : Nat) : Int) ∧
        ((GoMap.keys st.adjustmentsPerNode).map
            (fun h => GoMap.get 0 st.adjustmentsPerNode h)).sum =
          (samplePods.length : Int) - st.idealPodsPerNode * GoMap.len st.podsPerNode :=
  ⟨by decide,
   adjustments_sum List.reverse id (fun _ => none) samplePods (List.reverse_perm _) (by decide)⟩

/-- C9: no pod on a host whose count is at or below the target is selected or
deleted: the `Delete` calls of a run are those of a list of pods of the input,
each on a host whose count is strictly above the target, and the loop body
leaves every host with a count at or below the target untouched. -/
theorem no_deletion_at_or_below_target (range1 range2 : GoMap Int → List (String × Int))
    (outcome : Nat → Option String) (pods : List Pod)
    (h1 : (range1 (podsPerNode pods)).Perm (podsPerNode pods)) :
    (∃ sel : List Pod,
        deleteCalls (main range1 range2 outcome pods) = sel.map deleteCallOf ∧
        ∀ p ∈ sel, p ∈ pods ∧
          ∃ st, main range1 range2 outcome pods = .ok st ∧
            st.idealPodsPerNode < GoMap.get 0 st.podsPerNode p.NodeName) ∧
      (∀ st, main range1 range2 outcome pods = .ok st →
        ∀ (node : String) (count : Int) (eff : Effects),
          node ∈ GoMap.keys st.podsPerNode →
          GoMap.get 0 st.podsPerNode node ≤ st.idealPodsPerNode →
          processNode outcome st.podsOnNode st.adjustmentsPerNode eff (node, count) = eff) := by
  by_cases hp : pods = []
  · subst hp
    refine ⟨⟨[], by simp [main_nil, deleteCalls], by simp⟩, ?_⟩
    intro st hst
    rw [main_nil] at hst
    cases hst
  · obtain ⟨ideal, hi, hm⟩ := main_ok range1 range2 outcome pods hp
    refine ⟨⟨selectedPods (podsOnNode pods)
      (computeAdjustments ideal (range1 (podsPerNode pods))) (range2 (podsPerNode pods)),
      ?_, ?_⟩, ?_⟩
    · rw [hm]
      exact deleteLoop_calls _ _ _ _
    · intro p hsel
      have h2 := selectedPods_overloaded pods ideal _ _ h1 p hsel
      exact ⟨h2.1, _, hm, h2.2.2⟩
    · intro st hst node count eff hnode hle
      rw [hm] at hst
      injection hst with hst
      subst hst
      obtain ⟨_, _, hget⟩ := computeAdjustments_spec ideal (podsPerNode pods)
        (range1 (podsPerNode pods)) (nodup_keys_podsPerNode pods) h1
      have h3 := hget node hnode
      have hle2 : GoMap.get 0 (podsPerNode pods) node ≤ ideal := hle
      have h4 : ¬ (GoMap.get 0 (computeAdjustments ideal (range1 (podsPerNode pods))) node > 0) := by
        rw [h3]
        omega
      simp only [processNode, h4, if_false]

theorem no_deletion_at_or_below_target_witness :
    ∃ sel : List Pod,
      deleteCalls (main List.reverse id (fun _ => none) samplePods) = sel.map deleteCallOf ∧
      ∀ p ∈ sel, p ∈ samplePods ∧
        ∃ st, main List.reverse id (fun _ => none) samplePods = .ok st ∧
          st.idealPodsPerNode < GoMap.get 0 st.podsPerNode p.NodeName :=
  (no_deletion_at_or_below_target List.reverse id (fun _ => none) samplePods
    (List.reverse_perm _)).1

/-- C10: for a positive `s` and a pod list with `k` eligible pods, `selectPods`
returns `min s k` pods; when `k < s` it returns exactly the `k` eligible pods,
in original order and each once, without padding or error. -/
theorem selectPods_under_delivery (pods : List Pod) (s : Int) (hs : 0 < s) :
    (((pods.filter isPodPartOfDeployment).length : Int) < s →
        selectPods pods s = pods.filter isPodPartOfDeployment) ∧
      ((selectPods pods s).length : Int) =
        min s ((pods.filter isPodPartOfDeployment).length : Int) ∧
      (selectPods pods s).Sublist pods := by
  rw [selectPods_eq]
  have h0 : (max s 0).toNat = s.toNat := by omega
  rw [h0]
  refine ⟨?_, ?_, ?_⟩
  · intro hk
    exact List.take_of_length_le (by omega)
  · rw [List.length_take]
    omega
  · exact (List.take_sublist _ _).trans (List.filter_sublist pods)

theorem selectPods_under_delivery_witness :
    (0 : Int) < 3 ∧ fivePods.length = 5 ∧
      (fivePods.filter isPodPartOfDeployment).length = 2 ∧
      selectPods fivePods 3 = [rsPod "p1" "A", rsPod "p3" "A"] ∧
      selectPods fivePods 3 = fivePods.filter isPodPartOfDeployment :=
  ⟨by decide, by decide, by decide, by decide,
   (selectPods_under_delivery fivePods 3 (by decide)).1 (by decide)⟩

/-- C11: on an empty pod list the pass does not terminate normally: no host key
exists, the division of line 52 has a zero divisor and the run panics; no
`Delete` call has been issued by then. -/
theorem empty_listing_panics (range1 range2 : GoMap Int → List (String × Int))
    (outcome : Nat → Option String) :
    GoMap.len (podsPerNode []) = 0 ∧
      main range1 range2 outcome [] = .error "runtime error: integer divide by zero" ∧
      deleteCalls (main range1 range2 outcome []) = [] :=
  ⟨rfl, rfl, rfl⟩

/-- C12, as stated, fails: seven unscheduled pods form one bucket with key "",
the target is 2, the surplus of the bucket is 5, and five `Delete` calls are
issued. -/
theorem unscheduled_pods_are_deleted :
    (∀ p ∈ unscheduledPods, p.NodeName = "") ∧
      podsPerNode unscheduledPods = [("", 7)] ∧
      deleteCalls (main id id (fun _ => none) unscheduledPods) =
        [⟨"default", "u1"⟩, ⟨"default", "u3"⟩, ⟨"default", "u4"⟩, ⟨"default", "u5"⟩,
         ⟨"default", "u6"⟩] := by
  refine ⟨by decide, by decide, by decide⟩

/-- C12, amended: on a non-empty pod list whose pods all have an empty host
assignment the pass returns; the bucket "" is its single host key, holding all
the pods, and the target is the number of pods, less 5 when that exceeds 5.
With at most 5 pods no `Delete` call is issued; with more than 5 the calls are
those of the first 5 pods owned by a ReplicaSet (of all of them when there are
fewer). -/
theorem unscheduled_only_pass (range1 range2 : GoMap Int → List (String × Int))
    (outcome : Nat → Option String) (pods : List Pod) (hp : pods ≠ [])
    (hu : ∀ p ∈ pods, p.NodeName = "")
    (h1 : (range1 (podsPerNode pods)).Perm (podsPerNode pods))
    (h2 : (range2 (podsPerNode pods)).Perm (podsPerNode pods)) :
    ∃ st, main range1 range2 outcome pods = .ok st ∧
      st.podsPerNode = [("", (pods.length : Int))] ∧
      st.idealPodsPerNode = adjustIdeal (pods.length : Int) ∧
      (pods.length ≤ 5 → st.effects.calls = []) ∧
      (5 < pods.length → st.effects.calls =
        ((pods.filter isPodPartOfDeployment).take 5).map deleteCallOf) := by
  obtain ⟨hppn, _⟩ := aggregate_unscheduled pods hp hu
  obtain ⟨st, hm, hs1, _, hi, _, hcalls⟩ := main_calls range1 range2 outcome pods hp h1 h2
  have hr2 : range2 (podsPerNode pods) = [("", (pods.length : Int))] := by
    rw [hppn] at h2 ⊢
    exact List.perm_singleton.mp h2
  have hideal : st.idealPodsPerNode = adjustIdeal (pods.length : Int) := by
    rw [hppn] at hi
    simp [idealPodsPerNode, goDiv, GoMap.len] at hi
    exact hi.symm
  have hall : pods.filter (fun p => p.NodeName = "") = pods := by
    rw [List.filter_eq_self]
    intro p hpm
    simp [hu p hpm]
  have hget : GoMap.get 0 (podsPerNode pods) "" = (pods.length : Int) := by
    rw [hppn]
    simp [GoMap.get]
  rw [hr2] at hcalls
  simp only [List.map_cons, List.map_nil, List.flatMap_cons, List.flatMap_nil,
    List.append_nil, hall, hget, hideal] at hcalls
  refine ⟨st, hm, hs1.trans hppn, hideal, ?_, ?_⟩
  · intro hle
    have h3 : (pods.length : Int) - adjustIdeal (pods.length : Int) ≤ 0 := by
      unfold adjustIdeal
      split <;> omega
    rw [hcalls, selectPods_nonpos _ _ h3]
    rfl
  · intro hgt
    have h3 : (pods.length : Int) - adjustIdeal (pods.length : Int) = 5 := by
      unfold adjustIdeal
      split <;> omega
    rw [hcalls, h3, selectPods_eq]
    rfl

theorem unscheduled_only_pass_witness :
    unscheduledPods ≠ [] ∧ (∀ p ∈ unscheduledPods, p.NodeName = "") ∧
      5 < unscheduledPods.length ∧
      ∃ st, main id id (fun _ => none) unscheduledPods = .ok st ∧
        st.podsPerNode = [("", (unscheduledPods.length : Int))] ∧
        st.idealPodsPerNode = adjustIdeal (unscheduledPods.length : Int) ∧
        (unscheduledPods.length ≤ 5 → st.effects.calls = []) ∧
        (5 < unscheduledPods.length → st.effects.calls =
          ((unscheduledPods.filter isPodPartOfDeployment).take 5).map deleteCallOf) :=
  ⟨by decide, by decide, by decide,
   unscheduled_only_pass id id (fun _ => none) unscheduledPods (by decide) (by decide)
     (List.Perm.refl _) (List.Perm.refl _)⟩

/-- C13: on a non-empty pod list the `Delete` calls of the pass are, host by
host in the order the hosts are visited, one call per element of
`selectPods(podsOnNode[h], s)` in the order returned for each host `h` with a
positive surplus `s`, and none for the other hosts.  For the hosts A:7, B:3,
C:2 the target is 4, the surpluses are 3, -1 and -2, and in whatever order the
hosts are visited the calls are those of the first three pods of A owned by a
ReplicaSet. -/
theorem deletions_follow_selectPods (range1 range2 : GoMap Int → List (String × Int))
    (outcome : Nat → Option String) (pods : List Pod) (hp : pods ≠ [])
    (h1 : (range1 (podsPerNode pods)).Perm (podsPerNode pods))
    (h2 : (range2 (podsPerNode pods)).Perm (podsPerNode pods)) :
    (∃ st, main range1 range2 outcome pods = .ok st ∧
      (range2 st.podsPerNode).Perm st.podsPerNode ∧
      (∀ h ∈ GoMap.keys st.podsPerNode,
        GoMap.get 0 st.adjustmentsPerNode h =
          GoMap.get 0 st.podsPerNode h - st.idealPodsPerNode) ∧
      st.effects.calls =
        (range2 st.podsPerNode).flatMap (fun entry =>
          if 0 < GoMap.get 0 st.adjustmentsPerNode entry.1 then
            (selectPods (GoMap.get [] st.podsOnNode entry.1)
              (GoMap.get 0 st.adjustmentsPerNode entry.1)).map deleteCallOf
          else [])) ∧
      (∀ (r1 r2 : GoMap Int → List (String × Int)) (o : Nat → Option String),
        (r1 (podsPerNode scenarioPods)).Perm (podsPerNode scenarioPods) →
        (r2 (podsPerNode scenarioPods)).Perm (podsPerNode scenarioPods) →
        ∃ st, main r1 r2 o scenarioPods = .ok st ∧
          st.podsPerNode = [("A", 7), ("B", 3), ("C", 2)] ∧
          st.idealPodsPerNode = 4 ∧
          GoMap.get 0 st.adjustmentsPerNode "A" = 3 ∧
          GoMap.get 0 st.adjustmentsPerNode "B" = -1 ∧
          GoMap.get 0 st.adjustmentsPerNode "C" = -2 ∧
          st.effects.calls = [⟨"default", "a1"⟩, ⟨"default", "a2"⟩, ⟨"default", "a4"⟩]) := by
  constructor
  · obtain ⟨ideal, hi, hm⟩ := main_ok range1 range2 outcome pods hp
    obtain ⟨_, _, hget⟩ := computeAdjustments_spec ideal (podsPerNode pods)
      (range1 (podsPerNode pods)) (nodup_keys_podsPerNode pods) h1
    refine ⟨_, hm, h2, hget, ?_⟩
    show (deleteLoop outcome (podsOnNode pods)
      (computeAdjustments ideal (range1 (podsPerNode pods))) (range2 (podsPerNode pods))).calls = _
    rw [deleteLoop_calls]
    unfold selectedPods
    rw [List.map_flatMap]
    apply List.flatMap_congr
    intro e _
    by_cases ha : GoMap.get 0 (computeAdjustments ideal (range1 (podsPerNode pods))) e.1 > 0
    · have ha2 : 0 < GoMap.get 0 (computeAdjustments ideal (range1 (podsPerNode pods))) e.1 := ha
      simp only [ha, ha2, if_true]
    · have ha2 : ¬ 0 < GoMap.get 0 (computeAdjustments ideal (range1 (podsPerNode pods))) e.1 := ha
      simp only [ha, ha2, if_false, List.map_nil]
  · intro r1 r2 o hr1 hr2
    have hppn : podsPerNode scenarioPods = [("A", 7), ("B", 3), ("C", 2)] := by decide
    obtain ⟨st, hm, hs1, _, hi, hadj, hcalls⟩ :=
      main_calls r1 r2 o scenarioPods (by decide) hr1 hr2
    have hideal : st.idealPodsPerNode = 4 := by
      rw [hppn] at hi
      have h4 : idealPodsPerNode ((scenarioPods.length : Nat) : Int)
          (GoMap.len [("A", (7 : Int)), ("B", 3), ("C", 2)]) = .ok 4 := rfl
      rw [h4] at hi
      injection hi with hi
      exact hi.symm
    obtain ⟨_, _, hget⟩ := computeAdjustments_spec st.idealPodsPerNode (podsPerNode scenarioPods)
      (r1 (podsPerNode scenarioPods)) (nodup_keys_podsPerNode scenarioPods) hr1
    rw [← hadj] at hget
    have hkeys : GoMap.keys (podsPerNode scenarioPods) = ["A", "B", "C"] := by decide
    have hA := hget "A" (by rw [hkeys]; decide)
    have hB := hget "B" (by rw [hkeys]; decide)
    have hC := hget "C" (by rw [hkeys]; decide)
    rw [hideal, hppn] at hA hB hC
    refine ⟨st, hm, hs1.trans hppn, hideal, by simpa [GoMap.get] using hA,
      by simpa [GoMap.get] using hB, by simpa [GoMap.get] using hC, ?_⟩
    have hperm : ((r2 (podsPerNode scenarioPods)).map Prod.fst).Perm ["A", "B", "C"] := by
      rw [← hkeys]
      exact hr2.map Prod.fst
    have hnd : ((r2 (podsPerNode scenarioPods)).map Prod.fst).Nodup :=
      hperm.nodup_iff.mpr (by decide)
    rw [hcalls, hideal,
      flatMap_single_block _ "A" _ hnd (hperm.mem_iff.mpr (by decide)) ?_]
    · decide
    · intro k hk hne
      have hk2 : k ∈ ["A", "B", "C"] := hperm.mem_iff.mp hk
      simp only [List.mem_cons, List.mem_singleton, List.not_mem_nil, or_false] at hk2
      rcases hk2 with h | h | h
      · exact absurd h hne
      · subst h
        decide
      · subst h
        decide

theorem deletions_follow_selectPods_witness :
    scenarioPods ≠ [] ∧
      deleteCalls (main List.reverse List.reverse (fun _ => none) scenarioPods) =
        [⟨"default", "a1"⟩, ⟨"default", "a2"⟩, ⟨"default", "a4"⟩] ∧
      ∃ st, main List.reverse List.reverse (fun _ => none) scenarioPods = .ok st ∧
        st.effects.calls =
          (List.reverse st.podsPerNode).flatMap (fun entry =>
            if 0 < GoMap.get 0 st.adjustmentsPerNode entry.1 then
              (selectPods (GoMap.get [] st.podsOnNode entry.1)
                (GoMap.get 0 st.adjustmentsPerNode entry.1)).map deleteCallOf
            else []) := by
  refine ⟨by decide, by decide, ?_⟩
  obtain ⟨st, hm, _, _, hcalls⟩ :=
    (deletions_follow_selectPods List.reverse List.reverse (fun _ => none) scenarioPods
      (by decide) (List.reverse_perm _) (List.reverse_perm _)).1
  exact ⟨st, hm, hcalls⟩

/-- C14: the sequence of `Delete` calls of the pass does not depend on what the
calls return: a run in which calls fail issues the calls of the run in which
none fails, and when every call fails each call is still issued and each
failure is reported. -/
theorem deletion_calls_ignore_outcomes (range1 range2 : GoMap Int → List (String × Int))
    (outcome1 outcome2 : Nat → Option String) (pods : List Pod) :
    deleteCalls (main range1 range2 outcome1 pods) =
        deleteCalls (main range1 range2 outcome2 pods) ∧
      (∀ (err : String) (st : PassState),
        main range1 range2 (fun _ => some err) pods = .ok st →
          st.effects.calls = deleteCalls (main range1 range2 (fun _ => none) pods) ∧
          st.effects.failures.length = st.effects.calls.length) ∧
      (∀ st : PassState, main range1 range2 (fun _ => none) pods = .ok st →
        st.effects.failures = []) := by
  refine ⟨?_, ?_, ?_⟩
  · rw [deleteCalls_main, deleteCalls_main]
  · intro err st hst
    have h1 : deleteCalls (main range1 range2 (fun _ => some err) pods) = st.effects.calls := by
      rw [hst]
      rfl
    refine ⟨?_, ?_⟩
    · rw [← h1, deleteCalls_main, deleteCalls_main]
    · by_cases hp : pods = []
      · subst hp
        rw [main_nil] at hst
        cases hst
      · obtain ⟨ideal, _, hm⟩ := main_ok range1 range2 (fun _ => some err) pods hp
        rw [hm] at hst
        injection hst with hst
        subst hst
        simp only [deleteLoop_failures_some, deleteLoop_calls, List.length_map]
  · intro st hst
    by_cases hp : pods = []
    · subst hp
      rw [main_nil] at hst
      cases hst
    · obtain ⟨ideal, _, hm⟩ := main_ok range1 range2 (fun _ => none) pods hp
      rw [hm] at hst
      injection hst with hst
      subst hst
      exact deleteLoop_failures_none _ _ _

theorem deletion_calls_ignore_outcomes_witness :
    deleteCalls (main id id (fun i => if i = 0 then some "timeout" else none) scenarioPods) =
        [⟨"default", "a1"⟩, ⟨"default", "a2"⟩, ⟨"default", "a4"⟩] ∧
      deleteCalls (main id id (fun i => if i = 0 then some "timeout" else none) scenarioPods) =
        deleteCalls (main id id (fun _ => none) scenarioPods) :=
  ⟨by decide,
   (deletion_calls_ignore_outcomes id id (fun i => if i = 0 then some "timeout" else none)
     (fun _ => none) scenarioPods).1⟩

/-- C15: on a non-empty pod list, for every host `h` the number of pods of `h`
handed to `Delete` is at most `max(surplus(h), 0)`, so at least
`min(count(h), target)` pods of `h` are left, and the number of `Delete` calls
is at most the sum of the positive surpluses. -/
theorem deletions_bounded_by_surplus (range1 range2 : GoMap Int → List (String × Int))
    (outcome : Nat → Option String) (pods : List Pod) (hp : pods ≠ [])
    (h1 : (range1 (podsPerNode pods)).Perm (podsPerNode pods))
    (h2 : (range2 (podsPerNode pods)).Perm (podsPerNode pods)) :
    ∃ st, main range1 range2 outcome pods = .ok st ∧
      st.effects.calls =
        (selectedPods st.podsOnNode st.adjustmentsPerNode (range2 st.podsPerNode)).map
          deleteCallOf ∧
      (∀ h : String,
        ((((selectedPods st.podsOnNode st.adjustmentsPerNode (range2 st.podsPerNode)).filter
            (fun p => p.NodeName = h)).length : Nat) : Int) ≤
          max (GoMap.get 0 st.adjustmentsPerNode h) 0) ∧
      (∀ h : String,
        min (GoMap.get 0 st.podsPerNode h) st.idealPodsPerNode ≤
          GoMap.get 0 st.podsPerNode h -
            (((selectedPods st.podsOnNode st.adjustmentsPerNode (range2 st.podsPerNode)).filter
              (fun p => p.NodeName = h)).length : Nat)) ∧
      ((st.effects.calls.length : Nat) : Int) ≤
        ((GoMap.keys st.podsPerNode).map
          (fun h => max (GoMap.get 0 st.adjustmentsPerNode h) 0)).sum := by
  obtain ⟨ideal, hi, hm⟩ := main_ok range1 range2 outcome pods hp
  obtain ⟨ideal2, hi2, hge1, _, _⟩ := adjustIdeal_bounds pods hp
  have hii : ideal2 = ideal := by
    rw [hi] at hi2
    injection hi2 with hi2
    exact hi2.symm
  subst hii
  obtain ⟨hnd, hperm, hget⟩ := computeAdjustments_spec ideal2 (podsPerNode pods)
    (range1 (podsPerNode pods)) (nodup_keys_podsPerNode pods) h1
  have hk : ∀ e ∈ range2 (podsPerNode pods), e.1 ∈ GoMap.keys (podsPerNode pods) := by
    intro e he
    exact List.mem_map.mpr ⟨e, h2.mem_iff.mp he, rfl⟩
  have hsel := selectedPods_eq_flatMap pods ideal2 _ _ h1 hk
  have hkperm : ((range2 (podsPerNode pods)).map Prod.fst).Perm (GoMap.keys (podsPerNode pods)) :=
    h2.map Prod.fst
  have hknd : ((range2 (podsPerNode pods)).map Prod.fst).Nodup :=
    hkperm.nodup_iff.mpr (nodup_keys_podsPerNode pods)
  have hfilter : ∀ h : String,
      (selectedPods (podsOnNode pods) (computeAdjustments ideal2 (range1 (podsPerNode pods)))
        (range2 (podsPerNode pods))).filter (fun p => p.NodeName = h) =
      if h ∈ GoMap.keys (podsPerNode pods) then
        selectPods (pods.filter (fun p => p.NodeName = h))
          (GoMap.get 0 (podsPerNode pods) h - ideal2)
      else [] := by
    intro h
    rw [hsel, filter_flatMap_block _ (fun k p hpk => mem_selectPods_filter pods k _ p hpk) _ hknd h]
    by_cases hmem : h ∈ GoMap.keys (podsPerNode pods)
    · rw [if_pos hmem, if_pos (hkperm.mem_iff.mpr hmem)]
    · rw [if_neg hmem, if_neg (fun hc => hmem (hkperm.mem_iff.mp hc))]
  have hbound : ∀ h : String,
      ((((selectedPods (podsOnNode pods) (computeAdjustments ideal2 (range1 (podsPerNode pods)))
        (range2 (podsPerNode pods))).filter (fun p => p.NodeName = h)).length : Nat) : Int) ≤
        max (GoMap.get 0 (computeAdjustments ideal2 (range1 (podsPerNode pods))) h) 0 := by
    intro h
    rw [hfilter h]
    by_cases hmem : h ∈ GoMap.keys (podsPerNode pods)
    · rw [if_pos hmem, hget h hmem]
      exact length_selectPods_le _ _
    · rw [if_neg hmem]
      simp
  refine ⟨_, hm, deleteLoop_calls _ _ _ _, hbound, ?_, ?_⟩
  · intro h
    have hb := hbound h
    show min (GoMap.get 0 (podsPerNode pods) h) ideal2 ≤ GoMap.get 0 (podsPerNode pods) h -
      (((selectedPods (podsOnNode pods) (computeAdjustments ideal2 (range1 (podsPerNode pods)))
        (range2 (podsPerNode pods))).filter (fun p => p.NodeName = h)).length : Nat)
    by_cases hmem : h ∈ GoMap.keys (podsPerNode pods)
    · rw [hget h hmem] at hb
      omega
    · have h0 : GoMap.get 0 (podsPerNode pods) h = 0 := GoMap.get_of_not_mem_keys 0 _ h hmem
      have h3 : GoMap.get 0 (computeAdjustments ideal2 (range1 (podsPerNode pods))) h = 0 :=
        GoMap.get_of_not_mem_keys 0 _ h (fun hc => hmem (hperm.mem_iff.mp hc))
      rw [h3] at hb
      omega
  · show (((deleteLoop outcome (podsOnNode pods)
        (computeAdjustments ideal2 (range1 (podsPerNode pods)))
        (range2 (podsPerNode pods))).calls.length : Nat) : Int) ≤
      ((GoMap.keys (podsPerNode pods)).map
        (fun h => max (GoMap.get 0 (computeAdjustments ideal2 (range1 (podsPerNode pods))) h)
          0)).sum
    rw [deleteLoop_calls, List.length_map, hsel, ← (hkperm.map _).sum_eq]
    apply length_flatMap_le_sum
    intro k hkm
    rw [hget k (hkperm.mem_iff.mp hkm)]
    exact length_selectPods_le _ _

theorem deletions_bounded_by_surplus_witness :
    scenarioPods ≠ [] ∧
      ∃ st, main List.reverse id (fun _ => none) scenarioPods = .ok st ∧
        ((st.effects.calls.length : Nat) : Int) ≤
          ((GoMap.keys st.podsPerNode).map
            (fun h => max (GoMap.get 0 st.adjustmentsPerNode h) 0)).sum := by
  refine ⟨by decide, ?_⟩
  obtain ⟨st, hm, _, _, _, htotal⟩ :=
    deletions_bounded_by_surplus List.reverse id (fun _ => none) scenarioPods
      (by decide) (List.reverse_perm _) (List.Perm.refl _)
  exact ⟨st, hm, htotal⟩

/-- C16: `selectPods` is idempotent in its list argument: selecting `s` pods
from the result of selecting `s` pods gives that result again, for every pod
list and every integer `s`. -/
theorem selectPods_idempotent (pods : List Pod) (s : Int) :
    selectPods (selectPods pods s) s = selectPods pods s := by
  have h1 : (selectPods pods s).filter isPodPartOfDeployment = selectPods pods s := by
    rw [List.filter_eq_self]
    intro p hp
    exact (mem_selectPods pods s p hp).2
  rw [selectPods_eq (selectPods pods s) s, h1, selectPods_eq, List.take_take, Nat.min_self]

/-- C17: on a non-empty pod list the adjusted target is at least 1 and at most
the quotient `T / |H|`, and some host has a non-negative surplus: its count is
at least the target. -/
theorem target_bounds (range1 range2 : GoMap Int → List (String × Int))
    (outcome : Nat → Option String) (pods : List Pod) (hp : pods ≠ [])
    (h1 : (range1 (podsPerNode pods)).Perm (podsPerNode pods)) :
    ∃ st, main range1 range2 outcome pods = .ok st ∧
      1 ≤ st.idealPodsPerNode ∧
      st.idealPodsPerNode ≤ Int.tdiv (pods.length : Int) (GoMap.len st.podsPerNode) ∧
      ∃ h ∈ GoMap.keys st.podsPerNode,
        0 ≤ GoMap.get 0 st.adjustmentsPerNode h ∧
        st.idealPodsPerNode ≤ GoMap.get 0 st.podsPerNode h := by
  obtain ⟨ideal, hi, hm⟩ := main_ok range1 range2 outcome pods hp
  obtain ⟨ideal2, hi2, hge1, hle, hmul⟩ := adjustIdeal_bounds pods hp
  have hii : ideal2 = ideal := by
    rw [hi] at hi2
    injection hi2 with hi2
    exact hi2.symm
  subst hii
  obtain ⟨_, _, hget⟩ := computeAdjustments_spec ideal2 (podsPerNode pods)
    (range1 (podsPerNode pods)) (nodup_keys_podsPerNode pods) h1
  refine ⟨_, hm, hge1, hle, ?_⟩
  show ∃ h ∈ GoMap.keys (podsPerNode pods),
    0 ≤ GoMap.get 0 (computeAdjustments ideal2 (range1 (podsPerNode pods))) h ∧
    ideal2 ≤ GoMap.get 0 (podsPerNode pods) h
  by_contra hcon
  have hall : ∀ k ∈ GoMap.keys (podsPerNode pods),
      GoMap.get 0 (podsPerNode pods) k ≤ ideal2 - 1 := by
    intro k hk
    by_contra hk2
    apply hcon
    refine ⟨k, hk, ?_, by omega⟩
    rw [hget k hk]
    omega
  have hsum := sum_map_le_const (fun k => GoMap.get 0 (podsPerNode pods) k) (ideal2 - 1)
    (GoMap.keys (podsPerNode pods)) hall
  rw [sum_podsPerNode] at hsum
  have hpos := len_podsPerNode_pos pods hp
  have hlen : ((GoMap.keys (podsPerNode pods)).length : Int) = GoMap.len (podsPerNode pods) := by
    simp [GoMap.keys, GoMap.len]
  rw [hlen] at hsum
  have hexp : (ideal2 - 1) * GoMap.len (podsPerNode pods) =
      ideal2 * GoMap.len (podsPerNode pods) - GoMap.len (podsPerNode pods) := by ring
  rw [hexp] at hsum
  omega

theorem target_bounds_witness :
    samplePods ≠ [] ∧
      ∃ st, main List.reverse id (fun _ => none) samplePods = .ok st ∧
        1 ≤ st.idealPodsPerNode ∧
        st.idealPodsPerNode ≤ Int.tdiv (samplePods.length : Int) (GoMap.len st.podsPerNode) ∧
        ∃ h ∈ GoMap.keys st.podsPerNode,
          0 ≤ GoMap.get 0 st.adjustmentsPerNode h ∧
          st.idealPodsPerNode ≤ GoMap.get 0 st.podsPerNode h :=
  ⟨by decide,
   target_bounds List.reverse id (fun _ => none) samplePods (by decide) (List.reverse_perm _)⟩

/-- C18: the adjusted target is not monotone in the total pod count: with 4
hosts, 20 pods give the target 5 and 24 pods give the target 1, both as values
of the computation and as targets of runs of the pass; every ideal from 6 to
10 gives a target no larger than the target 5 of the ideal 5. -/
theorem target_not_monotone :
    (idealPodsPerNode 20 4 = .ok 5 ∧ idealPodsPerNode 24 4 = .ok 1) ∧
      (∃ (n T1 T2 : Nat) (t1 t2 : Int), T1 < T2 ∧
        idealPodsPerNode (T1 : Int) (n : Int) = .ok t1 ∧
        idealPodsPerNode (T2 : Int) (n : Int) = .ok t2 ∧ t2 < t1) ∧
      adjustIdeal 5 = 5 ∧
      (∀ ideal : Int, 6 ≤ ideal → ideal ≤ 10 → adjustIdeal ideal ≤ adjustIdeal 5) ∧
      (∀ (range1 range2 : GoMap Int → List (String × Int)) (outcome : Nat → Option String)
        (pods1 pods2 : List Pod),
        pods1.length = 20 → (pods1.map (fun p => p.NodeName)).toFinset.card = 4 →
        pods2.length = 24 → (pods2.map (fun p => p.NodeName)).toFinset.card = 4 →
        ∃ st1 st2, main range1 range2 outcome pods1 = .ok st1 ∧
          main range1 range2 outcome pods2 = .ok st2 ∧
          st1.idealPodsPerNode = 5 ∧ st2.idealPodsPerNode = 1) := by
  refine ⟨⟨rfl, rfl⟩, ⟨4, 20, 24, 5, 1, by decide, rfl, rfl, by decide⟩, rfl, ?_, ?_⟩
  · intro ideal h6 h10
    have h5 : adjustIdeal 5 = 5 := rfl
    rw [h5]
    unfold adjustIdeal
    split <;> omega
  · intro range1 range2 outcome pods1 pods2 hl1 hc1 hl2 hc2
    have hp1 : pods1 ≠ [] := by
      intro h
      subst h
      simp at hl1
    have hp2 : pods2 ≠ [] := by
      intro h
      subst h
      simp at hl2
    obtain ⟨i1, hi1, hm1⟩ := main_ok range1 range2 outcome pods1 hp1
    obtain ⟨i2, hi2, hm2⟩ := main_ok range1 range2 outcome pods2 hp2
    refine ⟨_, _, hm1, hm2, ?_, ?_⟩
    · rw [idealPodsPerNode_pods pods1 hp1, hl1, hc1] at hi1
      injection hi1 with hi1
      exact hi1.symm
    · rw [idealPodsPerNode_pods pods2 hp2, hl2, hc2] at hi2
      injection hi2 with hi2
      exact hi2.symm

theorem target_not_monotone_witness :
    (6 : Int) ≤ 7 ∧ (7 : Int) ≤ 10 ∧ adjustIdeal 7 ≤ adjustIdeal 5 ∧
      (evenPods 5).length = 20 ∧ (evenPods 6).length = 24 ∧
      ∃ st1 st2, main id id (fun _ => none) (evenPods 5) = .ok st1 ∧
        main id id (fun _ => none) (evenPods 6) = .ok st2 ∧
        st1.idealPodsPerNode = 5 ∧ st2.idealPodsPerNode = 1 :=
  ⟨by decide, by decide, target_not_monotone.2.2.2.1 7 (by decide) (by decide),
   by decide, by decide,
   target_not_monotone.2.2.2.2 id id (fun _ => none) (evenPods 5) (evenPods 6)
     (by decide) (by decide) (by decide) (by decide)⟩

/-- C19: the pods the pass selects for deletion do not depend on the order in
which the host keys are visited: for any two orders of the loops over
`podsPerNode` the target and the adjustments agree, the sequence selected for
each host is the same, and the two `Delete` sequences are the same per-host
blocks concatenated in the two visiting orders, hence permutations of each
other. -/
theorem deletions_independent_of_order
    (range1 range2 range1b range2b : GoMap Int → List (String × Int))
    (outcome outcomeb : Nat → Option String) (pods : List Pod)
    (h1 : (range1 (podsPerNode pods)).Perm (podsPerNode pods))
    (h2 : (range2 (podsPerNode pods)).Perm (podsPerNode pods))
    (h1b : (range1b (podsPerNode pods)).Perm (podsPerNode pods))
    (h2b : (range2b (podsPerNode pods)).Perm (podsPerNode pods)) :
    (∃ block : String → List Pod,
      (∀ h, ∀ p ∈ block h, p ∈ pods ∧ p.NodeName = h) ∧
      deleteCalls (main range1 range2 outcome pods) =
        (((range2 (podsPerNode pods)).map Prod.fst).flatMap block).map deleteCallOf ∧
      deleteCalls (main range1b range2b outcomeb pods) =
        (((range2b (podsPerNode pods)).map Prod.fst).flatMap block).map deleteCallOf ∧
      ((range2 (podsPerNode pods)).map Prod.fst).Perm
        ((range2b (podsPerNode pods)).map Prod.fst)) ∧
      (deleteCalls (main range1 range2 outcome pods)).Perm
        (deleteCalls (main range1b range2b outcomeb pods)) ∧
      (∀ st stb, main range1 range2 outcome pods = .ok st →
        main range1b range2b outcomeb pods = .ok stb →
        st.idealPodsPerNode = stb.idealPodsPerNode ∧
        ∀ h, GoMap.get 0 st.adjustmentsPerNode h = GoMap.get 0 stb.adjustmentsPerNode h ∧
          selectPods (GoMap.get [] st.podsOnNode h) (GoMap.get 0 st.adjustmentsPerNode h) =
            selectPods (GoMap.get [] stb.podsOnNode h)
              (GoMap.get 0 stb.adjustmentsPerNode h)) := by
  have hkperm : ((range2 (podsPerNode pods)).map Prod.fst).Perm
      ((range2b (podsPerNode pods)).map Prod.fst) :=
    (h2.trans h2b.symm).map Prod.fst
  by_cases hp : pods = []
  · subst hp
    refine ⟨⟨fun _ => [], by simp, ?_, ?_, hkperm⟩, ?_, ?_⟩
    · rw [main_nil]
      simp [deleteCalls]
    · rw [main_nil]
      simp [deleteCalls]
    · rw [main_nil, main_nil]
    · intro st stb hst
      rw [main_nil] at hst
      cases hst
  · obtain ⟨st, hm, _, hpon, hi, hadj, hcalls⟩ :=
      main_calls range1 range2 outcome pods hp h1 h2
    obtain ⟨stb, hmb, _, hponb, hib, hadjb, hcallsb⟩ :=
      main_calls range1b range2b outcomeb pods hp h1b h2b
    have hideal : st.idealPodsPerNode = stb.idealPodsPerNode := by
      rw [hi] at hib
      injection hib with hib
    have hblock : (∃ block : String → List Pod,
        (∀ h, ∀ p ∈ block h, p ∈ pods ∧ p.NodeName = h) ∧
        deleteCalls (main range1 range2 outcome pods) =
          (((range2 (podsPerNode pods)).map Prod.fst).flatMap block).map deleteCallOf ∧
        deleteCalls (main range1b range2b outcomeb pods) =
          (((range2b (podsPerNode pods)).map Prod.fst).flatMap block).map deleteCallOf ∧
        ((range2 (podsPerNode pods)).map Prod.fst).Perm
          ((range2b (podsPerNode pods)).map Prod.fst)) := by
      refine ⟨fun h => selectPods (pods.filter (fun p => p.NodeName = h))
        (GoMap.get 0 (podsPerNode pods) h - st.idealPodsPerNode), ?_, ?_, ?_, hkperm⟩
      · intro h p hpm
        have h3 := (mem_selectPods _ _ _ hpm).1
        exact ⟨(List.mem_filter.mp h3).1, by simpa using (List.mem_filter.mp h3).2⟩
      · rw [hm]
        exact hcalls
      · rw [hmb, hideal]
        exact hcallsb
    refine ⟨hblock, ?_, ?_⟩
    · obtain ⟨block, _, hc, hcb, hk⟩ := hblock
      rw [hc, hcb]
      exact (hk.flatMap_right block).map deleteCallOf
    · intro st2 stb2 hst2 hstb2
      rw [hm] at hst2
      rw [hmb] at hstb2
      injection hst2 with hst2
      injection hstb2 with hstb2
      subst hst2
      subst hstb2
      refine ⟨hideal, ?_⟩
      intro h
      obtain ⟨_, hperm, hget⟩ := computeAdjustments_spec st.idealPodsPerNode (podsPerNode pods)
        (range1 (podsPerNode pods)) (nodup_keys_podsPerNode pods) h1
      obtain ⟨_, hpermb, hgetb⟩ := computeAdjustments_spec stb.idealPodsPerNode
        (podsPerNode pods) (range1b (podsPerNode pods)) (nodup_keys_podsPerNode pods) h1b
      have hsame : GoMap.get 0 st.adjustmentsPerNode h = GoMap.get 0 stb.adjustmentsPerNode h := by
        rw [hadj, hadjb]
        by_cases hmem : h ∈ GoMap.keys (podsPerNode pods)
        · rw [hget h hmem, hgetb h hmem, hideal]
        · rw [GoMap.get_of_not_mem_keys 0 _ h (fun hc => hmem (hperm.mem_iff.mp hc)),
            GoMap.get_of_not_mem_keys 0 _ h (fun hc => hmem (hpermb.mem_iff.mp hc))]
      refine ⟨hsame, ?_⟩
      rw [hsame, hpon, hponb]

theorem deletions_independent_of_order_witness :
    deleteCalls (main id id (fun _ => none) twoBusyHosts) =
        [⟨"default", "a1"⟩, ⟨"default", "b1"⟩] ∧
      deleteCalls (main List.reverse List.reverse (fun _ => none) twoBusyHosts) =
        [⟨"default", "b1"⟩, ⟨"default", "a1"⟩] ∧
      (deleteCalls (main List.reverse List.reverse (fun _ => none) twoBusyHosts)).Perm
        (deleteCalls (main id id (fun _ => none) twoBusyHosts)) :=
  ⟨by decide, by decide,
   (deletions_independent_of_order List.reverse List.reverse id id (fun _ => none)
     (fun _ => none) twoBusyHosts (List.reverse_perm _) (List.reverse_perm _)
     (List.Perm.refl _) (List.Perm.refl _)).2.1⟩

end KubePodsBalancer
